import Mathlib

/-!
Shallow embedding of the statement line-grammar engine of the
Vercel-Project bank statement parsers (src/app/api/parsers).  Each Python
script is modelled as a pure function from extracted text lines to a list
of transactions; the uuid identifier is modelled separately as a positional
id stream.  Amount arithmetic is modelled over the rationals, which is
exact for the decimal amount tokens the regexes capture.
-/

set_option maxRecDepth 16384

namespace BankParse

/-- Python str.isspace characters relevant to strip and the regex class
backslash-s for ASCII input. -/
def isPyWs (c : Char) : Bool :=
  c = ' ' || c = '\t' || c = '\n' || c = '\r' || c = '\x0b' || c = '\x0c'

/-- Characters of the regex class containing digits, comma and dot
(the optional money groups of the primary Westpac pattern in local.py). -/
def tokChar (c : Char) : Bool := c.isDigit || c = ',' || c = '.'

/-- Characters of the regex class containing digits and comma. -/
def numComma (c : Char) : Bool := c.isDigit || c = ','

/-- Value of a string of ASCII digits, most significant first. -/
def natOfDigits (cs : List Char) : Nat :=
  cs.foldl (fun n c => 10 * n + (c.toNat - 48)) 0

/-- Python str.zfill 2 on a one- or two-character day capture. -/
def zfill2 (cs : List Char) : List Char :=
  if cs.length ≥ 2 then cs else '0' :: cs

/-- Remove trailing Python whitespace. -/
def dropEndWs : List Char → List Char
  | [] => []
  | c :: rest =>
    let r := dropEndWs rest
    if r.isEmpty && isPyWs c then [] else c :: r

/-- Python str.strip. -/
def pyStrip (cs : List Char) : List Char :=
  dropEndWs (cs.dropWhile isPyWs)

/-- Does the list start with the given needle. -/
def startsWithL : List Char → List Char → Bool
  | _, [] => true
  | [], _ :: _ => false
  | a :: as, b :: bs => a = b && startsWithL as bs

/-- Python substring containment (the "in" operator on strings). -/
def hasSub (needle : List Char) : List Char → Bool
  | [] => needle.isEmpty
  | c :: rest => startsWithL (c :: rest) needle || hasSub needle rest

/-- Index of the last occurrence of the needle, Python str.rfind
(none when absent, where Python yields -1). -/
def rfindIdx (hay needle : List Char) : Option Nat :=
  ((List.range (hay.length + 1)).filter
    (fun i => startsWithL (hay.drop i) needle)).getLast?

/-- The text strictly after the first occurrence of the needle. -/
def afterSub (needle : List Char) : List Char → Option (List Char)
  | [] => none
  | c :: rest =>
    if startsWithL (c :: rest) needle then some ((c :: rest).drop needle.length)
    else afterSub needle rest

/-- The text up to (excluding) the next occurrence of the needle. -/
def upToSub (needle : List Char) : List Char → List Char
  | [] => []
  | c :: rest =>
    if startsWithL (c :: rest) needle then [] else c :: upToSub needle rest

/-- The rational with the given decimal integer and fraction digit parts,
built with mkRat so that it evaluates by kernel reduction. -/
def decimalRat (ip fp : List Char) : ℚ :=
  mkRat (natOfDigits ip * 10 ^ fp.length + natOfDigits fp) (10 ^ fp.length)

/-- Python float of a comma-free token: optional minus, digits, at most one
dot; none models a ValueError. -/
def pyFloatCore (cs : List Char) : Option ℚ :=
  let p := cs.span Char.isDigit
  match p.2 with
  | [] => if p.1.isEmpty then none else some (decimalRat p.1 [])
  | '.' :: r2 =>
    let q := r2.span Char.isDigit
    if q.2.isEmpty && !(p.1.isEmpty && q.1.isEmpty) then
      some (decimalRat p.1 q.1)
    else none
  | _ => none

/-- Python float, with the leading minus sign. -/
def pyFloat : List Char → Option ℚ
  | '-' :: rest => (pyFloatCore rest).map Neg.neg
  | cs => pyFloatCore cs

/-- Exact value of an unsigned money token of shape digits/commas, dot, two
digits, as float sees it after the commas are removed. -/
def ratMoneyTok (tok : List Char) : ℚ :=
  let cs := tok.filter (fun c => c ≠ ',')
  let p := cs.span (fun c => c ≠ '.')
  decimalRat p.1 (p.2.drop 1)

/-- Signed money token value (the CBA amount pattern admits a leading
minus inside the token). -/
def ratMoneyTokS (tok : List Char) : ℚ :=
  match tok with
  | '-' :: rest => -(ratMoneyTok rest)
  | _ => ratMoneyTok tok

/-- Gregorian leap year. -/
def isLeap (y : Nat) : Bool := y % 4 = 0 && (y % 100 ≠ 0 || y % 400 = 0)

def daysInMonth (y m : Nat) : Nat :=
  if m = 2 then (if isLeap y then 29 else 28)
  else if m = 4 || m = 6 || m = 9 || m = 11 then 30 else 31

/-- Validity test performed by datetime.strptime on a y/m/d triple. -/
def validYMD (y m d : Nat) : Bool :=
  1 ≤ y && 1 ≤ m && m ≤ 12 && 1 ≤ d && d ≤ daysInMonth y m

/-- The property that a string is a valid ISO calendar date YYYY-MM-DD. -/
def isValidISODate (s : String) : Bool :=
  match s.toList with
  | [a, b, c, d, s1, e, f, s2, g, h] =>
    s1 = '-' && s2 = '-' && [a, b, c, d, e, f, g, h].all Char.isDigit &&
      validYMD (natOfDigits [a, b, c, d]) (natOfDigits [e, f]) (natOfDigits [g, h])
  | _ => false

/-- No two adjacent whitespace characters (the property enforced by the
whitespace-collapsing substitution). -/
def adjFree : List Char → Bool
  | a :: b :: r => (!(isPyWs a && isPyWs b)) && adjFree (b :: r)
  | _ => true

/-- The first character, if any, is not whitespace. -/
def headOk (cs : List Char) : Bool :=
  match cs.head? with
  | some c => !isPyWs c
  | none => true

/-- The last character, if any, is not whitespace. -/
def lastOk (cs : List Char) : Bool :=
  match cs.getLast? with
  | some c => !isPyWs c
  | none => true

/-- Neither leading nor trailing whitespace. -/
def noEdgeWs (cs : List Char) : Bool := headOk cs && lastOk cs

/-- A transaction record as emitted by every parser, without the uuid. -/
structure Txn where
  date : String
  description : String
  amount : ℚ
deriving Repr, DecidableEq

/-- A transaction record with its generated identifier. -/
structure TxnId where
  id : String
  date : String
  description : String
  amount : ℚ
deriving Repr, DecidableEq

/-- Attach identifiers from a positional id stream, modelling one uuid4
call per appended transaction. -/
def withIds (ids : Nat → String) (ts : List Txn) : List TxnId :=
  ts.mapIdx (fun i t => ⟨ids i, t.date, t.description, t.amount⟩)

def stripId (t : TxnId) : Txn := ⟨t.date, t.description, t.amount⟩

/-!
Generic pieces of the regex semantics shared by the grammars: the lazy
description group followed by mandatory whitespace and a trailing-columns
matcher, and the backtracking scanners for the money-token patterns.
-/

/-- Matches the regex fragment consisting of a lazy dot-star group, then
mandatory whitespace, then a tail pattern that runs to the end: tries the
shortest description first, exactly like the backtracking engine.  The
dot of the lazy group does not cross a newline. -/
def findDesc {β : Type} (tm : List Char → Option β) : List Char → Option (List Char × β)
  | [] => none
  | c :: rest =>
    if isPyWs c then
      match tm ((c :: rest).dropWhile isPyWs) with
      | some b => some ([], b)
      | none =>
        if c = '\n' then none else
        match findDesc tm rest with
        | some (d, b) => some (c :: d, b)
        | none => none
    else
      if c = '\n' then none else
      match findDesc tm rest with
      | some (d, b) => some (c :: d, b)
      | none => none

/-- Same search when the lazy group must capture at least one character. -/
def findDesc1 {β : Type} (tm : List Char → Option β) : List Char → Option (List Char × β)
  | [] => none
  | c :: rest =>
    if c = '\n' then none else
    match findDesc tm rest with
    | some (d, b) => some (c :: d, b)
    | none => none

/-- The full lazy-description search including the backtracking case in
which the preceding mandatory whitespace run gives one character back and
the description group matches the empty string, so the tail starts
immediately after the run. -/
def descSearch {β : Type} (tm : List Char → Option β) (wsLen : Nat) (r : List Char) :
    Option (List Char × β) :=
  match findDesc tm r with
  | some p => some p
  | none => if wsLen ≥ 2 then (tm r).map (fun b => ([], b)) else none

/-- Regex fragment of a dot and exactly two digits. -/
def dotTwo : List Char → Option (List Char × List Char)
  | '.' :: a :: b :: r => if a.isDigit && b.isDigit then some (['.', a, b], r) else none
  | _ => none

/-- Regex fragment of a comma-separated thousands group sequence followed
by dot and two digits, with the greedy backtracking over the number of
groups. -/
def commaThenDot : List Char → Option (List Char × List Char)
  | ',' :: a :: b :: c :: r =>
    if a.isDigit && b.isDigit && c.isDigit then
      match commaThenDot r with
      | some (m, rest) => some (',' :: a :: b :: c :: m, rest)
      | none => dotTwo (',' :: a :: b :: c :: r)
    else dotTwo (',' :: a :: b :: c :: r)
  | cs => dotTwo cs

/-- One-to-three leading digits variant of the money core, trying the
greedy length first. -/
def tryLen (n : Nat) (cs : List Char) : Option (List Char × List Char) :=
  let ds := cs.take n
  if ds.length = n && ds.all Char.isDigit then
    match commaThenDot (cs.drop n) with
    | some (m, rest) => some (ds ++ m, rest)
    | none => none
  else none

/-- Match of the money pattern with one-to-three digits, thousands groups
and two decimals at the head of the input. -/
def coreAt (cs : List Char) : Option (List Char × List Char) :=
  (tryLen 3 cs).orElse fun _ => (tryLen 2 cs).orElse fun _ => tryLen 1 cs

/-- The CBA amount pattern additionally admits a leading minus inside the
token. -/
def moneyAt (neg : Bool) (cs : List Char) : Option (List Char × List Char) :=
  match cs with
  | '-' :: r =>
    if neg then (coreAt r).map (fun p => ('-' :: p.1, p.2)) else coreAt cs
  | _ => coreAt cs

/-- Match of the looser money pattern of digits-or-commas, dot, two digits
at the head of the input (Westpac statement and ANZ amounts). -/
def wMoneyAt (cs : List Char) : Option (List Char × List Char) :=
  let p := cs.span numComma
  if p.1.isEmpty then none
  else
    match p.2 with
    | '.' :: a :: b :: r =>
      if a.isDigit && b.isDigit then some (p.1 ++ '.' :: [a, b], r) else none
    | _ => none

/-- re.findall: scan left to right, at each position try the matcher and
continue after a match.  The fuel equals the input length, which suffices
because every match consumes at least one character. -/
def scanWith (m : List Char → Option (List Char × List Char)) :
    Nat → List Char → List (List Char)
  | 0, _ => []
  | _, [] => []
  | fuel + 1, c :: rest =>
    match m (c :: rest) with
    | some (tok, after) => tok :: scanWith m fuel after
    | none => scanWith m fuel rest

def findAllWith (m : List Char → Option (List Char × List Char)) (cs : List Char) :
    List (List Char) :=
  scanWith m cs.length cs

/-- Outcome of processing one line: a transaction, a silent skip, or an
uncaught exception that kills the run. -/
inductive LOut where
  | txn (t : Txn)
  | skip
  | crash
deriving Repr, DecidableEq

/-- The per-line loop of a parser: skips contribute nothing, a crash
aborts the whole run before anything is printed. -/
def runLines (f : String → LOut) : List String → Option (List Txn)
  | [] => some []
  | l :: ls =>
    match f l with
    | .crash => none
    | .skip => runLines f ls
    | .txn t => (runLines f ls).map (t :: ·)

/-! ## local.py — Westpac statement grammar with document-level fallback -/

namespace Local

/-- month_map of local.py: exact-case three-letter keys. -/
def monthTable : List (List Char × List Char) :=
  [(['J', 'a', 'n'], ['0', '1']), (['F', 'e', 'b'], ['0', '2']),
   (['M', 'a', 'r'], ['0', '3']), (['A', 'p', 'r'], ['0', '4']),
   (['M', 'a', 'y'], ['0', '5']), (['J', 'u', 'n'], ['0', '6']),
   (['J', 'u', 'l'], ['0', '7']), (['A', 'u', 'g'], ['0', '8']),
   (['S', 'e', 'p'], ['0', '9']), (['O', 'c', 't'], ['1', '0']),
   (['N', 'o', 'v'], ['1', '1']), (['D', 'e', 'c'], ['1', '2'])]

/-- month_map.get of local.py with its January default. -/
def monthMM (cs : List Char) : List Char :=
  (monthTable.lookup cs).getD ['0', '1']

/-- Optional money group capture triple of the primary pattern. -/
structure Tail3 where
  g5 : Option (List Char)
  g6 : Option (List Char)
  g7 : Option (List Char)

/-- One optional token group of the class digits/comma/dot. -/
def grabTok (cs : List Char) : Option (List Char) × List Char :=
  let p := cs.span tokChar
  (if p.1.isEmpty then none else some p.1, p.2)

/-- Trailing part of the primary pattern: three optional token groups
separated by optional whitespace, then optional whitespace, then the end
of the line. -/
def tailPrimary (cs : List Char) : Option Tail3 :=
  let p1 := grabTok cs
  let r1 := p1.2.dropWhile isPyWs
  let p2 := grabTok r1
  let r2 := p2.2.dropWhile isPyWs
  let p3 := grabTok r2
  let r3 := p3.2.dropWhile isPyWs
  if r3.isEmpty then some ⟨p1.1, p2.1, p3.1⟩ else none

/-- Trailing part of the fallback pattern: one mandatory token group,
optional whitespace, end of line. -/
def tailFallback (cs : List Char) : Option (List Char) :=
  let p := cs.span tokChar
  if p.1.isEmpty then none
  else if (p.2.dropWhile isPyWs).isEmpty then some p.1 else none

/-- Shared head of both patterns: day digits, whitespace, three letters,
whitespace.  Returns day, month and the remainder with the length of the
whitespace run that follows the three letters. -/
def matchDayMon (cs : List Char) : Option (List Char × List Char × Nat × List Char) :=
  let d := cs.span Char.isDigit
  if d.1.length = 0 || d.1.length > 2 then none
  else
    let w1 := d.2.span isPyWs
    if w1.1.isEmpty then none
    else
      match w1.2 with
      | a :: b :: c :: r3 =>
        if a.isAlpha && b.isAlpha && c.isAlpha then
          let w2 := r3.span isPyWs
          if w2.1.isEmpty then none
          else some (d.1, [a, b, c], w2.1.length, w2.2)
        else none
      | _ => none

/-- Primary pattern match on a stripped line: day, month, the CR/DR type
code, the lazily captured description and the three optional groups. -/
def matchPrimary (cs : List Char) : Option (List Char × List Char × List Char × Tail3) :=
  match matchDayMon cs with
  | none => none
  | some (day, mon, _, rest) =>
    match rest with
    | t1 :: t2 :: r5 =>
      if ('A' ≤ t1 && t1 ≤ 'Z') && ('A' ≤ t2 && t2 ≤ 'Z') then
        let w3 := r5.span isPyWs
        if w3.1.isEmpty then none
        else
          match descSearch tailPrimary w3.1.length w3.2 with
          | some (d, g) => some (day, mon, d, g)
          | none => none
      else none
    | _ => none

/-- Fallback pattern match on a stripped line: day, month, description
and the single mandatory amount group. -/
def matchFallback (cs : List Char) : Option (List Char × List Char × List Char × List Char) :=
  match matchDayMon cs with
  | none => none
  | some (day, mon, wsLen, rest) =>
    match descSearch tailFallback wsLen rest with
    | some (d, g) => some (day, mon, d, g)
    | none => none

/-- The f-string date with the fixed fallback year 2023, validated by
strptime: none models the ValueError that makes the loop continue. -/
def lineDate (day mon : List Char) : Option String :=
  let mm := monthMM mon
  let m := natOfDigits mm
  let d := natOfDigits day
  if 1 ≤ d && d ≤ daysInMonth 2023 m then
    some (String.mk (['2', '0', '2', '3', '-'] ++ mm ++ '-' :: zfill2 day))
  else none

/-- Primary-pattern handling of one line of local.py. -/
def linePrimary (line : String) : LOut :=
  match matchPrimary (pyStrip line.toList) with
  | none => .skip
  | some (day, mon, desc, g) =>
    match lineDate day mon with
    | none => .skip
    | some date =>
      let ds := String.mk (pyStrip desc)
      match g.g5 with
      | some mo =>
        match pyFloat (mo.filter (fun c => c ≠ ',')) with
        | some v => .txn ⟨date, ds, -v⟩
        | none => .crash
      | none =>
        match g.g6 with
        | some mi =>
          match pyFloat (mi.filter (fun c => c ≠ ',')) with
          | some v => .txn ⟨date, ds, v⟩
          | none => .crash
        | none => .skip

/-- Fallback-pattern handling of one line of local.py. -/
def lineFallback (line : String) : LOut :=
  match matchFallback (pyStrip line.toList) with
  | none => .skip
  | some (day, mon, desc, tok) =>
    match lineDate day mon with
    | none => .skip
    | some date =>
      match pyFloat (tok.filter (fun c => c ≠ ',')) with
      | some v => .txn ⟨date, String.mk (pyStrip desc), -v⟩
      | none => .crash

def primaryPass (lines : List String) : Option (List Txn) :=
  runLines linePrimary lines

def fallbackPass (lines : List String) : Option (List Txn) :=
  runLines lineFallback lines

/-- Whole run of local.py on the extracted lines: primary pass over the
document, then the fallback pass only when it produced no transaction. -/
def parse (lines : List String) : Option (List Txn) :=
  match primaryPass lines with
  | none => none
  | some ts => if ts.isEmpty then fallbackPass lines else some ts

end Local

/-! ## parse_pdf_cba.py — CBA statement grammar -/

namespace CBA

/-- MONTH_MAP of parse_pdf_cba.py with the dict.get default of January. -/
def monthMM (cs : List Char) : List Char :=
  if cs = "January".toList then ['0', '1']
  else if cs = "February".toList then ['0', '2']
  else if cs = "March".toList then ['0', '3']
  else if cs = "April".toList then ['0', '4']
  else if cs = "May".toList then ['0', '5']
  else if cs = "June".toList then ['0', '6']
  else if cs = "July".toList then ['0', '7']
  else if cs = "August".toList then ['0', '8']
  else if cs = "September".toList then ['0', '9']
  else if cs = "October".toList then ['1', '0']
  else if cs = "November".toList then ['1', '1']
  else if cs = "December".toList then ['1', '2']
  else ['0', '1']

/-- date_pattern of parse_pdf_cba.py, anchored at the line start: day
digits, whitespace, a month word, whitespace, four year digits.  Returns
day, month word, year and the remainder after the match end. -/
def dateMatch (cs : List Char) : Option (List Char × List Char × List Char × List Char) :=
  let d := cs.span Char.isDigit
  if d.1.length = 0 || d.1.length > 2 then none
  else
    let w1 := d.2.span isPyWs
    if w1.1.isEmpty then none
    else
      let mo := w1.2.span Char.isAlpha
      if mo.1.isEmpty then none
      else
        let w2 := mo.2.span isPyWs
        if w2.1.isEmpty then none
        else
          match w2.2 with
          | y1 :: y2 :: y3 :: y4 :: rest =>
            if y1.isDigit && y2.isDigit && y3.isDigit && y4.isDigit then
              some (d.1, mo.1, [y1, y2, y3, y4], rest)
            else none
          | _ => none

/-- The f-string ISO date of parse_pdf_cba.py; no calendar validation is
performed. -/
def dateISO (day mon yr : List Char) : String :=
  String.mk (yr ++ '-' :: monthMM mon ++ '-' :: zfill2 day)

/-- Is the stripped line a balance-marker line. -/
def isBalanceL (cs : List Char) : Bool :=
  hasSub "OPENING BALANCE".toList cs || hasSub "CLOSING BALANCE".toList cs

def isBalance (line : String) : Bool := isBalanceL (pyStrip line.toList)

/-- The remainder of a matched non-balance line after the date match,
stripped (the slice the amounts are searched in). -/
def remainderOf (line : String) : Option (List Char) :=
  match dateMatch (pyStrip line.toList) with
  | some (_, _, _, rest) => some (pyStrip rest)
  | none => none

/-- findall of the amount pattern (optional minus, one to three digits,
thousands groups, two decimals) over the given text. -/
def amountsIn (cs : List Char) : List (List Char) :=
  findAllWith (moneyAt true) cs

/-- The last amount token on a matched non-balance line. -/
def lastAmountTok (line : String) : Option (List Char) :=
  match remainderOf line with
  | some rem => (amountsIn rem).getLast?
  | none => none

/-- Processing of one stripped line of parse_pdf_cba.py. -/
def lineOut (line : String) : Option Txn :=
  let cs := pyStrip line.toList
  if isBalanceL cs then
    let dio :=
      match dateMatch cs with
      | some (day, mon, yr, _) => dateISO day mon yr
      | none => ""
    let desc := if hasSub "OPENING".toList cs then "OPENING BALANCE" else "CLOSING BALANCE"
    some ⟨dio, desc, 0⟩
  else
    match dateMatch cs with
    | none => none
    | some (day, mon, yr, rest) =>
      let dio := dateISO day mon yr
      let remaining := pyStrip rest
      let amounts := amountsIn remaining
      match amounts.getLast? with
      | none => some ⟨dio, String.mk remaining, 0⟩
      | some tok =>
        let v := ratMoneyTokS tok
        let pos :=
          match rfindIdx remaining tok with
          | some i => i
          | none => remaining.length - 1
        let desc := pyStrip (remaining.take pos)
        some ⟨dio, String.mk desc, -v⟩

/-- Whole run over the extracted lines of all pages in order. -/
def parse (lines : List String) : List Txn :=
  lines.filterMap lineOut

end CBA

/-! ## parse_pdf_westpac.py — Westpac layout grammar over pages 2, 3, 4 -/

namespace Westpac

/-- Case-insensitive month abbreviation lookup of strptime %b. -/
def monthAbbr (cs : List Char) : Option (List Char) :=
  let lo := cs.map Char.toLower
  if lo = ['j', 'a', 'n'] then some ['0', '1']
  else if lo = ['f', 'e', 'b'] then some ['0', '2']
  else if lo = ['m', 'a', 'r'] then some ['0', '3']
  else if lo = ['a', 'p', 'r'] then some ['0', '4']
  else if lo = ['m', 'a', 'y'] then some ['0', '5']
  else if lo = ['j', 'u', 'n'] then some ['0', '6']
  else if lo = ['j', 'u', 'l'] then some ['0', '7']
  else if lo = ['a', 'u', 'g'] then some ['0', '8']
  else if lo = ['s', 'e', 'p'] then some ['0', '9']
  else if lo = ['o', 'c', 't'] then some ['1', '0']
  else if lo = ['n', 'o', 'v'] then some ['1', '1']
  else if lo = ['d', 'e', 'c'] then some ['1', '2']
  else none

/-- line_start_pattern: optional leading whitespace, a day-month-year
capture of day digits, three letters and a two-digit year, mandatory
whitespace, then the greedy rest of the line. -/
def lineMatch (cs : List Char) : Option (List Char × List Char × List Char × List Char) :=
  let cs0 := cs.dropWhile isPyWs
  let d := cs0.span Char.isDigit
  if d.1.length = 0 || d.1.length > 2 then none
  else
    let w1 := d.2.span isPyWs
    if w1.1.isEmpty then none
    else
      match w1.2 with
      | a :: b :: c :: r3 =>
        if a.isAlpha && b.isAlpha && c.isAlpha then
          let w2 := r3.span isPyWs
          if w2.1.isEmpty then none
          else
            match w2.2 with
            | y1 :: y2 :: r4 =>
              if y1.isDigit && y2.isDigit then
                let w3 := r4.span isPyWs
                if w3.1.isEmpty then none
                else some (d.1, [a, b, c], [y1, y2], w3.2)
              else none
            | _ => none
        else none
      | _ => none

/-- strptime with format day, abbreviated month, two-digit year, then
strftime back to ISO; none models the ValueError continue. -/
def dateDBY (day mon yy : List Char) : Option String :=
  match monthAbbr mon with
  | none => none
  | some mm =>
    let d := natOfDigits day
    let m := natOfDigits mm
    let y2 := natOfDigits yy
    let y := if y2 ≤ 68 then 2000 + y2 else 1900 + y2
    if 1 ≤ d && d ≤ daysInMonth y m then
      some (String.mk ((if y2 ≤ 68 then ['2', '0'] else ['1', '9']) ++ yy
        ++ '-' :: mm ++ '-' :: zfill2 day))
    else none

/-- Slice position of the description: rfind of the last amount token
(with the Python minus-one fallback slice when absent). -/
def rawDescPos (rest : List Char) (tok : List Char) : Nat :=
  match rfindIdx rest tok with
  | some i => i
  | none => rest.length - 1

/-- The internal description after placeholder substitution but before
the whitespace collapse (the string the CRED VOUCHER test reads). -/
def rawDesc (rest : List Char) (tok : List Char) : List Char :=
  let d0 := pyStrip (rest.take (rawDescPos rest tok))
  if d0.isEmpty || (!d0.isEmpty && d0.all Char.isDigit) then ['-'] else d0

/-- Scanner for the whitespace collapse: when the flag is set the scanner
is inside a run already replaced by a single space and swallows further
whitespace. -/
def collapseGo : Bool → List Char → List Char
  | _, [] => []
  | true, c :: rest =>
    if isPyWs c then collapseGo true rest else c :: collapseGo false rest
  | false, c :: rest =>
    if isPyWs c then
      match rest with
      | d :: _ => if isPyWs d then ' ' :: collapseGo true rest else c :: collapseGo false rest
      | [] => [c]
    else c :: collapseGo false rest

/-- Collapse of every whitespace run of length at least two to a single
space (re.sub with a two-or-more whitespace pattern). -/
def collapseWs (cs : List Char) : List Char := collapseGo false cs

/-- Processing of one raw line of parse_pdf_westpac.py. -/
def line (lineS : String) : Option Txn :=
  match lineMatch lineS.toList with
  | none => none
  | some (day, mon, yy, rest) =>
    let amounts := findAllWith wMoneyAt rest
    match amounts.getLast? with
    | none => none
    | some tok =>
      let d1 := rawDesc rest tok
      match dateDBY day mon yy with
      | none => none
      | some date =>
        let v := ratMoneyTok tok
        let amount := if hasSub "CRED VOUCHER".toList d1 then v else -v
        some ⟨date, String.mk (collapseWs d1), amount⟩

/-- Does the CRED VOUCHER credit test of line 54 fire on this line: the
sign evidence the parser reads. -/
def isCredit (lineS : String) : Bool :=
  match lineMatch lineS.toList with
  | none => false
  | some (_, _, _, rest) =>
    match (findAllWith wMoneyAt rest).getLast? with
    | none => false
    | some tok => hasSub "CRED VOUCHER".toList (rawDesc rest tok)

/-- One page: the loop over the lines of its extracted text. -/
def page (lines : List String) : List Txn :=
  lines.filterMap line

/-- Whole run of parse_pdf_westpac.py: only the pages at zero-based
indices 2, 3 and 4 are scanned, missing indices are skipped. -/
def parse (pages : List (List String)) : List Txn :=
  (match pages[2]? with | some pg => page pg | none => [])
    ++ (match pages[3]? with | some pg => page pg | none => [])
    ++ (match pages[4]? with | some pg => page pg | none => [])

end Westpac

/-! ## parse_pdf_westpac_credit_card.py — continuation-capable grammar -/

namespace WCC

/-- date_pattern: two digits, slash, two digits, slash, two digits at the
line start, then mandatory whitespace and the greedy rest. -/
def dateMatch (cs : List Char) :
    Option (List Char × List Char × List Char × List Char) :=
  match cs with
  | d1 :: d2 :: '/' :: m1 :: m2 :: '/' :: y1 :: y2 :: r =>
    if d1.isDigit && d2.isDigit && m1.isDigit && m2.isDigit && y1.isDigit && y2.isDigit then
      let w := r.span isPyWs
      if w.1.isEmpty then none else some ([d1, d2], [m1, m2], [y1, y2], w.2)
    else none
  | _ => none

/-- strptime day/month/two-digit-year, strftime to ISO; none models the
caught ValueError. -/
def parseDate (dd mm yy : List Char) : Option String :=
  let d := natOfDigits dd
  let m := natOfDigits mm
  let y2 := natOfDigits yy
  let y := if y2 ≤ 68 then 2000 + y2 else 1900 + y2
  if 1 ≤ m && m ≤ 12 && 1 ≤ d && d ≤ daysInMonth y m then
    some (String.mk ((if y2 ≤ 68 then ['2', '0'] else ['1', '9']) ++ yy
      ++ '-' :: mm ++ '-' :: dd))
  else none

/-- findall of the amount pattern with thousands groups and two decimals. -/
def amountsIn (cs : List Char) : List (List Char) :=
  findAllWith (moneyAt false) cs

/-- Number of amount tokens on a line, the amounts-line heuristic. -/
def countTokens (cs : List Char) : Nat := (amountsIn cs).length

/-- The continuation loop: stripped lines are accumulated as description
fragments until the first line carrying at least two amount tokens, which
is returned separately together with the remaining lines. -/
def splitFrags : List String → List (List Char) × Option (List Char × List String)
  | [] => ([], none)
  | l :: ls =>
    let s := pyStrip l.toList
    if countTokens s ≥ 2 then ([], some (s, ls))
    else
      let p := splitFrags ls
      (s :: p.1, p.2)

/-- Does the accumulated description carry a deposit or refund keyword. -/
def keywordCredit (desc : List Char) : Bool :=
  hasSub "Deposit".toList desc || hasSub "Refund".toList desc

/-- Amount disambiguation of the credit-card grammar from the token count
of the amounts line: three tokens are debit, credit, balance; two tokens
are assigned by keyword evidence; anything else yields no amount. -/
def amountOf (desc : List Char) (amounts : List (List Char)) : Option ℚ :=
  let dc : List Char × List Char :=
    match amounts with
    | [d, c, _] => (d, c)
    | [a, _] => if keywordCredit desc then ([], a) else (a, [])
    | _ => ([], [])
  if !dc.1.isEmpty then some (-(ratMoneyTok dc.1))
  else if !dc.2.isEmpty then some (ratMoneyTok dc.2)
  else none

/-- The main while-loop of parse_pdf_westpac_credit_card.py (the float
conversions cannot raise because the token shape always parses).  The
fuel argument makes the recursion structural; every recursive call moves
to a strict suffix, so fuel equal to the number of lines suffices. -/
def goF : Nat → List String → List Txn
  | 0, _ => []
  | _ + 1, [] => []
  | fuel + 1, l :: rest =>
    match dateMatch (pyStrip l.toList) with
    | none => goF fuel rest
    | some (dd, mm, yy, r0) =>
      match parseDate dd mm yy with
      | none => goF fuel rest
      | some date =>
        match splitFrags rest with
        | (_, none) => []
        | (frags, some (aline, tail)) =>
          let desc := List.intercalate [' '] (pyStrip r0 :: frags)
          match amountOf desc (amountsIn aline) with
          | none => goF fuel tail
          | some a => ⟨date, String.mk desc, a⟩ :: goF fuel tail

/-- Whole run over the lines of the concatenated page texts. -/
def parse (lines : List String) : List Txn := goF lines.length lines

end WCC

/-! ## parse_pdf_amex.py — Amex grammar with reference-line capture -/

namespace Amex

/-- The month-name alternation of date_line_pattern, tried in the listed
order; no name is a prefix of another so the lookup is deterministic. -/
def monthAlt (cs : List Char) : Option (List Char × List Char) :=
  if startsWithL cs "January".toList then some (['0', '1'], cs.drop 7)
  else if startsWithL cs "February".toList then some (['0', '2'], cs.drop 8)
  else if startsWithL cs "March".toList then some (['0', '3'], cs.drop 5)
  else if startsWithL cs "April".toList then some (['0', '4'], cs.drop 5)
  else if startsWithL cs "May".toList then some (['0', '5'], cs.drop 3)
  else if startsWithL cs "June".toList then some (['0', '6'], cs.drop 4)
  else if startsWithL cs "July".toList then some (['0', '7'], cs.drop 4)
  else if startsWithL cs "August".toList then some (['0', '8'], cs.drop 6)
  else if startsWithL cs "September".toList then some (['0', '9'], cs.drop 9)
  else if startsWithL cs "October".toList then some (['1', '0'], cs.drop 7)
  else if startsWithL cs "November".toList then some (['1', '1'], cs.drop 8)
  else if startsWithL cs "December".toList then some (['1', '2'], cs.drop 8)
  else none

/-- Trailing amount of the pattern: one or more digits, dot, two digits,
then the end of the line. -/
def tailAmount (cs : List Char) : Option (List Char × List Char × List Char) :=
  let p := cs.span Char.isDigit
  if p.1.isEmpty then none
  else
    match p.2 with
    | '.' :: a :: b :: r =>
      if a.isDigit && b.isDigit && r.isEmpty then some (p.1, [a], [b]) else none
    | _ => none

/-- date_line_pattern match on a stripped line: month number, day digits,
lazy description (at least one character) and the amount pieces. -/
def lineMatch (cs : List Char) :
    Option (List Char × List Char × List Char × (List Char × List Char × List Char)) :=
  match monthAlt cs with
  | none => none
  | some (mm, r1) =>
    let d := r1.span Char.isDigit
    if d.1.length = 0 || d.1.length > 2 then none
    else
      let w := d.2.span isPyWs
      if w.1.isEmpty then none
      else
        match findDesc1 tailAmount w.2 with
        | some (de, t) => some (mm, d.1, de, t)
        | none =>
          if w.1.length ≥ 3 then
            match tailAmount w.2 with
            | some t => some (mm, d.1, (w.1.drop (w.1.length - 2)).take 1, t)
            | none => none
          else none

/-- The reference captured from the line after a matched one: the text
between the first and second occurrence of the marker, stripped. -/
def refOf (next : Option String) : List Char :=
  match next with
  | none => []
  | some nl =>
    let s := pyStrip nl.toList
    if hasSub "Reference:".toList s then
      match afterSub "Reference:".toList s with
      | some rest => pyStrip (upToSub "Reference:".toList rest)
      | none => []
    else []

/-- The main while-loop of parse_pdf_amex.py; the date is emitted with
the fixed year 2025 and no calendar validation. -/
def go : List String → List Txn
  | [] => []
  | l :: rest =>
    match lineMatch (pyStrip l.toList) with
    | none => go rest
    | some (mm, day, de, (ds, a, b)) =>
      let dateS := String.mk ("2025-".toList ++ mm ++ '-' :: zfill2 day)
      let d0 := pyStrip de
      let ref := refOf rest.head?
      let full := if ref.isEmpty then d0 else d0 ++ " Ref:".toList ++ ref
      let amount : ℚ := decimalRat ds (a ++ b)
      ⟨dateS, String.mk full, -amount⟩ :: go rest

def parse (lines : List String) : List Txn := go lines

end Amex

/-! ## parse_pdf_anz.py — ANZ grammar via finditer over the whole text -/

namespace ANZ

/-- The captured groups of one ANZ pattern match. -/
structure Groups where
  dateProc : List Char × List Char × List Char
  dateTrans : List Char × List Char × List Char
  card : List Char
  desc : List Char
  amountTok : List Char
  cr : Bool
  balanceTok : List Char
deriving Repr, DecidableEq

/-- Two digits, slash, two digits, slash, four digits. -/
def dateTok (cs : List Char) :
    Option ((List Char × List Char × List Char) × List Char) :=
  match cs with
  | d1 :: d2 :: '/' :: m1 :: m2 :: '/' :: y1 :: y2 :: y3 :: y4 :: r =>
    if d1.isDigit && d2.isDigit && m1.isDigit && m2.isDigit
        && y1.isDigit && y2.isDigit && y3.isDigit && y4.isDigit then
      some (([d1, d2], [m1, m2], [y1, y2, y3, y4]), r)
    else none
  | _ => none

/-- Optional dollar sign, then the money token of digits-or-commas, dot,
two digits. -/
def dollarMoney (cs : List Char) : Option (List Char × List Char) :=
  match cs with
  | '$' :: r => wMoneyAt r
  | _ => wMoneyAt cs

/-- Tail of the pattern after the description: amount, the optional CR
label with its whitespace backtracking, and the balance. -/
def tailANZ (cs : List Char) : Option (List Char × Bool × List Char × List Char) :=
  match dollarMoney cs with
  | none => none
  | some (tok, r) =>
    let w := r.span isPyWs
    let crBranch : Option (List Char × Bool × List Char × List Char) :=
      match w.2 with
      | 'C' :: 'R' :: r2 =>
        let w2 := r2.span isPyWs
        if w2.1.isEmpty then none
        else
          match dollarMoney w2.2 with
          | some (bal, r3) => some (tok, true, bal, r3)
          | none => none
      | _ => none
    match crBranch with
    | some out => some out
    | none =>
      if w.1.isEmpty then none
      else
        match dollarMoney w.2 with
        | some (bal, r3) => some (tok, false, bal, r3)
        | none => none

/-- One match attempt of the ANZ pattern at the head of the text: both
dates, the card digits, the lazy description and the trailing amounts.
Returns the groups and the remainder after the match end. -/
def matchAt (cs : List Char) : Option (Groups × List Char) :=
  match dateTok cs with
  | none => none
  | some (dp, r1) =>
    let w1 := r1.span isPyWs
    if w1.1.isEmpty then none
    else
      match dateTok w1.2 with
      | none => none
      | some (dt, r2) =>
        let w2 := r2.span isPyWs
        if w2.1.isEmpty then none
        else
          match w2.2 with
          | c1 :: c2 :: c3 :: c4 :: r3 =>
            if c1.isDigit && c2.isDigit && c3.isDigit && c4.isDigit then
              let w3 := r3.span isPyWs
              if w3.1.isEmpty then none
              else
                match descSearch tailANZ w3.1.length w3.2 with
                | some (de, (tok, cr, bal, rest)) =>
                  some (⟨dp, dt, [c1, c2, c3, c4], de, tok, cr, bal⟩, rest)
                | none => none
            else none
          | _ => none

/-- finditer: leftmost non-overlapping matches.  The fuel equals the text
length; every match consumes at least one character. -/
def scanAux : Nat → List Char → List Groups
  | 0, _ => []
  | _, [] => []
  | fuel + 1, c :: rest =>
    match matchAt (c :: rest) with
    | some (g, after) => g :: scanAux fuel after
    | none => scanAux fuel rest

def scan (cs : List Char) : List Groups := scanAux cs.length cs

/-- strptime day/month/four-digit-year then strftime; none models the
uncaught ValueError that aborts the whole run. -/
def dateOf (t : List Char × List Char × List Char) : Option String :=
  let d := natOfDigits t.1
  let m := natOfDigits t.2.1
  let y := natOfDigits t.2.2
  if 1 ≤ y && 1 ≤ m && m ≤ 12 && 1 ≤ d && d ≤ daysInMonth y m then
    some (String.mk (t.2.2 ++ '-' :: t.2.1 ++ '-' :: t.1))
  else none

/-- Assembly of one transaction from a match: the transaction date is the
second captured date, the CR label forces the positive sign. -/
def assemble (g : Groups) : Option Txn :=
  match dateOf g.dateTrans with
  | none => none
  | some date =>
    let amount := ratMoneyTok g.amountTok
    some ⟨date, String.mk (pyStrip g.desc), if g.cr then amount else -amount⟩

/-- Whole run of parse_pdf_anz.py on the concatenated text; none models
the strptime exception killing the run before any output. -/
def parse (text : String) : Option (List Txn) :=
  (scan text.toList).mapM assemble

end ANZ

/-! ## General lemmas -/

theorem decimalRat_nonneg (ip fp : List Char) : 0 ≤ decimalRat ip fp := by
  unfold decimalRat
  rw [Rat.mkRat_eq_div]
  positivity

theorem ratMoneyTok_nonneg (tok : List Char) : 0 ≤ ratMoneyTok tok :=
  decimalRat_nonneg _ _

theorem ratMoneyTokS_cases (tok : List Char) :
    (tok.head? = some '-' ∧ ratMoneyTokS tok = -(ratMoneyTok (tok.drop 1)))
      ∨ (tok.head? ≠ some '-' ∧ ratMoneyTokS tok = ratMoneyTok tok) := by
  match tok with
  | [] => right; exact ⟨by simp, rfl⟩
  | c :: rest =>
    by_cases hc : c = '-'
    · subst hc; left; exact ⟨rfl, rfl⟩
    · right
      refine ⟨by simpa using hc, ?_⟩
      unfold ratMoneyTokS
      split
      · rename_i heq
        simp at heq
        obtain ⟨h1, -⟩ := heq
        exact absurd h1.symm (fun hx => hc hx.symm)
      · rfl

theorem WCC.splitFrags_tail_lt (ls : List String) (f : List (List Char))
    (a : List Char) (tl : List String) (h : WCC.splitFrags ls = (f, some (a, tl))) :
    tl.length < ls.length := by
  induction ls generalizing f with
  | nil => simp [WCC.splitFrags] at h
  | cons x xs ih =>
    simp only [WCC.splitFrags] at h
    by_cases hc : WCC.countTokens (pyStrip x.toList) ≥ 2
    · rw [if_pos hc] at h
      simp only [Prod.mk.injEq, Option.some.injEq] at h
      obtain ⟨-, -, rfl⟩ := h
      simp
    · rw [if_neg hc] at h
      simp only [Prod.mk.injEq] at h
      obtain ⟨-, h2⟩ := h
      have hx : WCC.splitFrags xs = ((WCC.splitFrags xs).1, some (a, tl)) := by
        rw [← h2]
      simpa using Nat.lt_succ_of_lt (ih _ hx)

theorem WCC.goF_fuel : ∀ (fuel fuel' : Nat) (ls : List String),
    ls.length ≤ fuel → ls.length ≤ fuel' → WCC.goF fuel ls = WCC.goF fuel' ls := by
  intro fuel
  induction fuel using Nat.strong_induction_on with
  | _ fuel ih =>
    intro fuel' ls h h'
    match fuel, fuel', ls, h, h' with
    | 0, 0, ls, h, h' => rfl
    | 0, f' + 1, ls, h, h' =>
      have hn : ls = [] := List.eq_nil_of_length_eq_zero (by omega)
      subst hn; rfl
    | f + 1, 0, ls, h, h' =>
      have hn : ls = [] := List.eq_nil_of_length_eq_zero (by omega)
      subst hn; rfl
    | f + 1, f' + 1, [], h, h' => rfl
    | f + 1, f' + 1, l :: rest, h, h' =>
      simp only [List.length_cons] at h h'
      have ihr : WCC.goF f rest = WCC.goF f' rest :=
        ih f (by omega) f' rest (by omega) (by omega)
      simp only [WCC.goF]
      cases WCC.dateMatch (pyStrip l.toList) with
      | none => exact ihr
      | some v =>
        obtain ⟨dd, mm, yy, r0⟩ := v
        dsimp only
        cases WCC.parseDate dd mm yy with
        | none => exact ihr
        | some date =>
          dsimp only
          match hs : WCC.splitFrags rest with
          | (frags, none) => dsimp only
          | (frags, some (aline, tail)) =>
            dsimp only
            have ht := WCC.splitFrags_tail_lt _ _ _ _ hs
            have iht : WCC.goF f tail = WCC.goF f' tail :=
              ih f (by omega) f' tail (by omega) (by omega)
            cases WCC.amountOf (List.intercalate [' '] (pyStrip r0 :: frags))
                (WCC.amountsIn aline) with
            | none => exact iht
            | some a =>
              dsimp only
              rw [iht]

theorem natOfDigits_zero_cons (ds : List Char) : natOfDigits ('0' :: ds) = natOfDigits ds := by
  have h : (10 * 0 + ('0'.toNat - 48)) = 0 := by decide
  show List.foldl _ (10 * 0 + ('0'.toNat - 48)) ds = List.foldl _ 0 ds
  rw [h]

theorem zfill2_facts (day : List Char) (h1 : day.length = 1 ∨ day.length = 2)
    (h2 : ∀ c ∈ day, c.isDigit) :
    ∃ d1 d2, zfill2 day = [d1, d2] ∧ d1.isDigit ∧ d2.isDigit ∧
      natOfDigits [d1, d2] = natOfDigits day := by
  rcases h1 with h1 | h1
  · match day, h1 with
    | [c], _ =>
      exact ⟨'0', c, by simp [zfill2], by decide, h2 c (by simp), natOfDigits_zero_cons [c]⟩
  · match day, h1 with
    | [c1, c2], _ => exact ⟨c1, c2, rfl, h2 c1 (by simp), h2 c2 (by simp), rfl⟩

theorem lookup_getD_mem {α β : Type} [BEq α] (tbl : List (α × β)) (k : α) (d : β) :
    (tbl.lookup k).getD d ∈ d :: tbl.map Prod.snd := by
  induction tbl with
  | nil => simp [List.lookup]
  | cons p rest ih =>
    simp only [List.lookup]
    by_cases hk : (k == p.1) = true
    · simp [hk]
    · simp only [hk]
      simp only [List.map_cons, List.mem_cons] at ih ⊢
      tauto

theorem monthMM_mem (cs : List Char) :
    Local.monthMM cs ∈ [['0', '1'], ['0', '2'], ['0', '3'], ['0', '4'], ['0', '5'], ['0', '6'],
      ['0', '7'], ['0', '8'], ['0', '9'], ['1', '0'], ['1', '1'], ['1', '2']] := by
  have h := lookup_getD_mem Local.monthTable cs ['0', '1']
  simp only [Local.monthTable, List.map_cons, List.map_nil, List.mem_cons,
    List.not_mem_nil, or_false] at h
  simp only [Local.monthMM, Local.monthTable, List.mem_cons, List.not_mem_nil, or_false]
  tauto

theorem monthMM_shape (cs : List Char) :
    ∃ m1 m2, Local.monthMM cs = [m1, m2] ∧ m1.isDigit ∧ m2.isDigit ∧
      1 ≤ natOfDigits [m1, m2] ∧ natOfDigits [m1, m2] ≤ 12 := by
  have hm := monthMM_mem cs
  simp only [List.mem_cons, List.not_mem_nil, or_false] at hm
  rcases hm with h | h | h | h | h | h | h | h | h | h | h | h <;>
    rw [h] <;>
    exact ⟨_, _, rfl, by decide, by decide, by decide, by decide⟩

theorem matchDayMon_day (cs day mon : List Char) (wsl : Nat) (rest : List Char)
    (h : Local.matchDayMon cs = some (day, mon, wsl, rest)) :
    (day.length = 1 ∨ day.length = 2) ∧ ∀ c ∈ day, c.isDigit := by
  simp only [Local.matchDayMon] at h
  by_cases hlen : (decide ((List.span Char.isDigit cs).1.length = 0)
      || decide ((List.span Char.isDigit cs).1.length > 2)) = true
  · rw [if_pos hlen] at h
    exact absurd h (by simp)
  · rw [if_neg hlen] at h
    have hday : day = (List.span Char.isDigit cs).1 := by
      by_cases hw : (List.span isPyWs (List.span Char.isDigit cs).2).1.isEmpty = true
      · rw [if_pos hw] at h
        exact absurd h (by simp)
      · rw [if_neg hw] at h
        rcases hmatch : (List.span isPyWs (List.span Char.isDigit cs).2).2 with _ | ⟨a, tl1⟩
        · rw [hmatch] at h
          exact absurd h (by simp)
        · rcases tl1 with _ | ⟨b, tl2⟩
          · rw [hmatch] at h
            exact absurd h (by simp)
          · rcases tl2 with _ | ⟨c, r3⟩
            · rw [hmatch] at h
              exact absurd h (by simp)
            · rw [hmatch] at h
              dsimp only at h
              by_cases hal : (a.isAlpha && b.isAlpha && c.isAlpha) = true
              · rw [if_pos hal] at h
                by_cases hw2 : (List.span isPyWs r3).1.isEmpty = true
                · rw [if_pos hw2] at h
                  exact absurd h (by simp)
                · rw [if_neg hw2] at h
                  rw [Option.some.injEq, Prod.mk.injEq] at h
                  exact h.1.symm
              · rw [if_neg hal] at h
                exact absurd h (by simp)
    constructor
    · simp only [Bool.or_eq_true, decide_eq_true_eq, not_or] at hlen
      rw [hday]
      omega
    · intro c hc
      rw [hday] at hc
      rw [List.span_eq_take_drop] at hc
      exact List.mem_takeWhile_imp hc

/-- The date emitted by the local.py strptime round-trip is a valid
calendar date. -/
theorem lineDate_valid (day mon : List Char) (date : String)
    (hlen : day.length = 1 ∨ day.length = 2) (hdig : ∀ c ∈ day, c.isDigit)
    (h : Local.lineDate day mon = some date) : isValidISODate date = true := by
  simp only [Local.lineDate] at h
  by_cases hguard : (decide (1 ≤ natOfDigits day)
      && decide (natOfDigits day ≤ daysInMonth 2023 (natOfDigits (Local.monthMM mon)))) = true
  · rw [if_pos hguard] at h
    obtain ⟨m1, m2, hmm, hm1, hm2, hmlo, hmhi⟩ := monthMM_shape mon
    obtain ⟨d1, d2, hz, hd1, hd2, hdv⟩ := zfill2_facts day hlen hdig
    rw [Option.some.injEq] at h
    subst h
    rw [hmm] at hguard ⊢
    rw [hz]
    simp only [Bool.and_eq_true, decide_eq_true_eq] at hguard
    unfold isValidISODate
    show (decide ('-' = '-') && decide ('-' = '-') && _ && _) = true
    simp only [Bool.and_eq_true, List.all_eq_true, decide_eq_true_eq]
    refine ⟨⟨⟨trivial, trivial⟩, ?_⟩, ?_⟩
    · intro c hc
      simp only [List.mem_cons, List.not_mem_nil, or_false] at hc
      rcases hc with rfl | rfl | rfl | rfl | rfl | rfl | rfl | rfl
      · decide
      · decide
      · decide
      · decide
      · exact hm1
      · exact hm2
      · exact hd1
      · exact hd2
    · unfold validYMD
      simp only [Bool.and_eq_true, decide_eq_true_eq]
      have h2023 : natOfDigits ['2', '0', '2', '3'] = 2023 := by decide
      rw [h2023, hdv]
      obtain ⟨hg1, hg2⟩ := hguard
      refine ⟨⟨⟨⟨by omega, hmlo⟩, hmhi⟩, hg1⟩, hg2⟩
  · rw [if_neg hguard] at h
    exact absurd h (by simp)

/-- Skipped lines leave the rest of a run untouched. -/
theorem runLines_skip (f : String → LOut) (pre post : List String) (l : String)
    (h : f l = .skip) :
    runLines f (pre ++ l :: post) = runLines f (pre ++ post) := by
  induction pre with
  | nil => simp only [List.nil_append, runLines, h]
  | cons x xs ih =>
    simp only [List.cons_append, runLines]
    cases f x <;> simp [ih]

theorem pyFloatCore_nonneg (cs : List Char) (v : ℚ) (h : pyFloatCore cs = some v) :
    0 ≤ v := by
  simp only [pyFloatCore] at h
  split at h
  · split at h
    · cases h
    · rw [Option.some.injEq] at h
      subst h
      exact decimalRat_nonneg _ _
  · split at h
    · rw [Option.some.injEq] at h
      subst h
      exact decimalRat_nonneg _ _
    · cases h
  · cases h

theorem pyFloat_eq_core (c : Char) (r : List Char) (hc : c ≠ '-') :
    pyFloat (c :: r) = pyFloatCore (c :: r) := by
  unfold pyFloat
  split
  · rename_i heq
    injection heq with h1 h2
    exact (hc h1).elim
  · rfl

theorem pyFloat_nonneg (cs : List Char) (v : ℚ) (hnd : ∀ c ∈ cs, c ≠ '-')
    (h : pyFloat cs = some v) : 0 ≤ v := by
  cases cs with
  | nil => exact pyFloatCore_nonneg [] v h
  | cons c r =>
    rw [pyFloat_eq_core c r (hnd c (by simp))] at h
    exact pyFloatCore_nonneg _ v h

theorem findDesc_tm {β : Type} (tm : List Char → Option β) (r : List Char)
    (d : List Char) (b : β) (h : findDesc tm r = some (d, b)) :
    ∃ cs, tm cs = some b := by
  induction r generalizing d with
  | nil => simp [findDesc] at h
  | cons c rest ih =>
    unfold findDesc at h
    by_cases hw : isPyWs c = true
    · rw [if_pos hw] at h
      cases htm : tm ((c :: rest).dropWhile isPyWs) with
      | some b0 =>
        rw [htm] at h
        rw [Option.some.injEq, Prod.mk.injEq] at h
        exact ⟨_, by rw [htm, h.2]⟩
      | none =>
        rw [htm] at h
        by_cases hn : c = '\n'
        · rw [if_pos hn] at h
          cases h
        · rw [if_neg hn] at h
          cases hfd : findDesc tm rest with
          | none => rw [hfd] at h; cases h
          | some p =>
            obtain ⟨d0, b0⟩ := p
            rw [hfd] at h
            dsimp only at h
            rw [Option.some.injEq, Prod.mk.injEq] at h
            obtain ⟨-, rfl⟩ := h
            exact ih d0 hfd
    · rw [if_neg hw] at h
      by_cases hn : c = '\n'
      · rw [if_pos hn] at h
        cases h
      · rw [if_neg hn] at h
        cases hfd : findDesc tm rest with
        | none => rw [hfd] at h; cases h
        | some p =>
          obtain ⟨d0, b0⟩ := p
          rw [hfd] at h
          dsimp only at h
          rw [Option.some.injEq, Prod.mk.injEq] at h
          obtain ⟨-, rfl⟩ := h
          exact ih d0 hfd

theorem descSearch_tm {β : Type} (tm : List Char → Option β) (wsLen : Nat)
    (r : List Char) (d : List Char) (b : β) (h : descSearch tm wsLen r = some (d, b)) :
    ∃ cs, tm cs = some b := by
  unfold descSearch at h
  cases hfd : findDesc tm r with
  | some p =>
    rw [hfd] at h
    rw [Option.some.injEq] at h
    subst h
    exact findDesc_tm tm r d b hfd
  | none =>
    rw [hfd] at h
    dsimp only at h
    by_cases hws : wsLen ≥ 2
    · rw [if_pos hws] at h
      cases htm : tm r with
      | none => rw [htm] at h; cases h
      | some b0 =>
        rw [htm] at h
        dsimp only [Option.map] at h
        rw [Option.some.injEq, Prod.mk.injEq] at h
        obtain ⟨-, rfl⟩ := h
        exact ⟨r, htm⟩
    · rw [if_neg hws] at h
      cases h

theorem tailFallback_chars (cs tok : List Char) (h : Local.tailFallback cs = some tok) :
    ∀ c ∈ tok, tokChar c := by
  simp only [Local.tailFallback] at h
  by_cases h1 : (List.span tokChar cs).1.isEmpty = true
  · rw [if_pos h1] at h
    cases h
  · rw [if_neg h1] at h
    by_cases h2 : ((List.span tokChar cs).2.dropWhile isPyWs).isEmpty = true
    · rw [if_pos h2] at h
      rw [Option.some.injEq] at h
      subst h
      intro c hc
      rw [List.span_eq_take_drop] at hc
      exact List.mem_takeWhile_imp hc
    · rw [if_neg h2] at h
      cases h

/-- Every transaction of the fallback pass carries a nonpositive amount:
the fallback pattern forces the debit sign on a nonnegative token. -/
theorem lineFallback_amount (l : String) (t : Txn)
    (h : Local.lineFallback l = .txn t) : t.amount ≤ 0 := by
  unfold Local.lineFallback at h
  cases hm : Local.matchFallback (pyStrip l.toList) with
  | none => rw [hm] at h; cases h
  | some v =>
    obtain ⟨day, mon, desc, tok⟩ := v
    rw [hm] at h
    dsimp only at h
    cases hd : Local.lineDate day mon with
    | none => rw [hd] at h; cases h
    | some date =>
      rw [hd] at h
      dsimp only at h
      cases hf : pyFloat (tok.filter (fun c => c ≠ ',')) with
      | none => rw [hf] at h; cases h
      | some v0 =>
        rw [hf] at h
        injection h with h
        subst h
        have htok : ∀ c ∈ tok, tokChar c := by
          unfold Local.matchFallback at hm
          cases hmd : Local.matchDayMon (pyStrip l.toList) with
          | none => rw [hmd] at hm; cases hm
          | some w =>
            obtain ⟨day', mon', wsl', rest'⟩ := w
            rw [hmd] at hm
            dsimp only at hm
            cases hds : descSearch Local.tailFallback wsl' rest' with
            | none => rw [hds] at hm; cases hm
            | some p =>
              rw [hds] at hm
              obtain ⟨d2, tok2⟩ := p
              dsimp only at hm
              simp only [Option.some.injEq, Prod.mk.injEq] at hm
              obtain ⟨-, -, -, htk⟩ := hm
              obtain ⟨cs', hcs'⟩ := descSearch_tm _ _ _ _ _ hds
              subst htk
              exact tailFallback_chars cs' tok2 hcs'
        have hnn : (0 : ℚ) ≤ v0 := by
          refine pyFloat_nonneg _ v0 ?_ hf
          intro c hc
          have hmem := List.mem_of_mem_filter hc
          have htc := htok c hmem
          intro hcontra
          rw [hcontra] at htc
          exact absurd htc (by decide)
        show -v0 ≤ 0
        linarith

theorem runLines_txn_mem (f : String → LOut) (lines : List String) (ts : List Txn)
    (P : Txn → Prop) (hf : ∀ l t, f l = .txn t → P t)
    (h : runLines f lines = some ts) : ∀ t ∈ ts, P t := by
  induction lines generalizing ts with
  | nil =>
    unfold runLines at h
    rw [Option.some.injEq] at h
    subst h
    simp
  | cons l ls ih =>
    unfold runLines at h
    cases hl : f l with
    | crash => rw [hl] at h; cases h
    | skip => rw [hl] at h; exact ih ts h
    | txn t0 =>
      rw [hl] at h
      cases hrest : runLines f ls with
      | none => rw [hrest] at h; cases h
      | some ts' =>
        rw [hrest] at h
        dsimp only [Option.map] at h
        rw [Option.some.injEq] at h
        subst h
        intro t ht
        simp only [List.mem_cons] at ht
        rcases ht with rfl | ht
        · exact hf l t hl
        · exact ih ts' hrest t ht

/-! ## Claim C1 — sign convention -/

/-- C1, counterexample: the CBA grammar emits amount 0 for a matched
non-balance line carrying no amount token, and a line whose last amount
token has a leading minus yields a positive (not negative) amount. -/
theorem claim1_counterexample :
    CBA.parse ["1 January 2024 FOO"] = [⟨"2024-01-01", "FOO", 0⟩] ∧
    CBA.isBalance "1 January 2024 FOO" = false ∧
    CBA.parse ["2 January 2024 BAR -4.50"] = [⟨"2024-01-02", "BAR", mkRat 9 2⟩] ∧
    (0 : ℚ) < mkRat 9 2 := by
  exact ⟨by decide, by decide, by decide, by decide⟩

/-- C1, amended: balance-marker rows have amount exactly 0; a CBA
non-balance row's amount is nonpositive when its last amount token is
unsigned (zero when the token value is zero or no token matched) and
nonnegative when the token carries a leading minus; Westpac rows are
nonnegative exactly on CRED VOUCHER evidence and nonpositive otherwise. -/
theorem claim1_amended :
    (∀ l t, CBA.lineOut l = some t → CBA.isBalance l = true → t.amount = 0) ∧
    (∀ l t, CBA.lineOut l = some t → CBA.isBalance l = false →
      (CBA.lastAmountTok l = none → t.amount = 0) ∧
      (∀ tok, CBA.lastAmountTok l = some tok →
        (tok.head? ≠ some '-' → t.amount ≤ 0) ∧ (tok.head? = some '-' → 0 ≤ t.amount))) ∧
    (∀ l t, Westpac.line l = some t →
      (Westpac.isCredit l = true → 0 ≤ t.amount) ∧
      (Westpac.isCredit l = false → t.amount ≤ 0)) := by
  refine ⟨?_, ?_, ?_⟩
  · intro l t h hb
    unfold CBA.isBalance at hb
    unfold CBA.lineOut at h
    rw [if_pos hb] at h
    injection h with h
    subst h
    rfl
  · intro l t h hb
    unfold CBA.isBalance at hb
    unfold CBA.lineOut at h
    rw [if_neg (by simp only [Bool.not_eq_true]; exact hb)] at h
    unfold CBA.lastAmountTok CBA.remainderOf
    cases hdm : CBA.dateMatch (pyStrip l.toList) with
    | none => rw [hdm] at h; exact absurd h (by simp)
    | some v =>
      obtain ⟨day, mon, yr, rest⟩ := v
      rw [hdm] at h
      dsimp only at h ⊢
      cases hlast : (CBA.amountsIn (pyStrip rest)).getLast? with
      | none =>
        rw [hlast] at h
        injection h with h
        subst h
        exact ⟨fun _ => rfl, fun tok htok => by simp at htok⟩
      | some tok =>
        rw [hlast] at h
        injection h with h
        subst h
        refine ⟨fun hn => by simp at hn, fun tok' htok => ?_⟩
        rw [Option.some.injEq] at htok
        subst htok
        have hnn := ratMoneyTok_nonneg tok
        have hnn' := ratMoneyTok_nonneg (tok.drop 1)
        constructor
        · intro hneg
          rcases ratMoneyTokS_cases tok with ⟨hh, -⟩ | ⟨-, he⟩
          · exact absurd hh hneg
          · show -(ratMoneyTokS tok) ≤ 0
            rw [he]
            linarith
        · intro hpos
          rcases ratMoneyTokS_cases tok with ⟨-, he⟩ | ⟨hh, -⟩
          · show (0 : ℚ) ≤ -(ratMoneyTokS tok)
            rw [he]
            linarith
          · exact absurd hpos hh
  · intro l t h
    unfold Westpac.line at h
    unfold Westpac.isCredit
    cases hlm : Westpac.lineMatch l.toList with
    | none => rw [hlm] at h; exact absurd h (by simp)
    | some v =>
      obtain ⟨day, mon, yy, rest⟩ := v
      rw [hlm] at h
      dsimp only at h ⊢
      cases hlast : (findAllWith wMoneyAt rest).getLast? with
      | none => rw [hlast] at h; exact absurd h (by simp)
      | some tok =>
        rw [hlast] at h
        dsimp only at h ⊢
        cases hdt : Westpac.dateDBY day mon yy with
        | none => rw [hdt] at h; exact absurd h (by simp)
        | some date =>
          rw [hdt] at h
          injection h with h
          subst h
          have hnn := ratMoneyTok_nonneg tok
          by_cases hc : hasSub "CRED VOUCHER".toList (Westpac.rawDesc rest tok) = true
          · constructor
            · intro _
              show (0 : ℚ) ≤ if hasSub "CRED VOUCHER".toList (Westpac.rawDesc rest tok)
                  then ratMoneyTok tok else -(ratMoneyTok tok)
              rw [if_pos hc]
              exact hnn
            · intro hf
              rw [hc] at hf
              cases hf
          · rw [Bool.not_eq_true] at hc
            constructor
            · intro ht
              rw [hc] at ht
              cases ht
            · intro _
              show (if hasSub "CRED VOUCHER".toList (Westpac.rawDesc rest tok)
                  then ratMoneyTok tok else -(ratMoneyTok tok)) ≤ 0
              rw [if_neg (by simp only [Bool.not_eq_true]; exact hc)]
              linarith

/-- C1, witness: the amended sign facts at a concrete unsigned CBA token. -/
theorem claim1_amended_witness :
    CBA.isBalance "2 January 2024 BAR 4.50" = false ∧
    (Txn.mk "2024-01-02" "BAR" (-(mkRat 9 2))).amount ≤ 0 := by
  refine ⟨by decide, ?_⟩
  exact ((claim1_amended.2.1 "2 January 2024 BAR 4.50" _ (by decide) (by decide)).2
    "4.50".toList (by decide)).1 (by decide)

/-! ## Claim C2 — date validity and per-line dropping -/

/-- C2, counterexample: the CBA grammar performs no calendar validation,
so a matched line with day 31 in February contributes a transaction whose
date is not a valid calendar date, instead of being dropped. -/
theorem claim2_counterexample :
    CBA.parse ["31 February 2024 X 1.00"] = [⟨"2024-02-31", "X", -1⟩] ∧
    isValidISODate "2024-02-31" = false := by
  exact ⟨by decide, by decide⟩

/-- C2, amended: in the local.py grammar every transaction produced by a
matched line (primary or fallback) carries a valid YYYY-MM-DD calendar
date, and a line that fails (calendar validation included) is dropped
without affecting the rest of the batch; the CBA grammar emits its
formatted date without calendar validation. -/
theorem claim2_amended :
    (∀ l t, Local.linePrimary l = .txn t → isValidISODate t.date = true) ∧
    (∀ l t, Local.lineFallback l = .txn t → isValidISODate t.date = true) ∧
    (∀ pre post l, Local.linePrimary l = .skip →
      Local.primaryPass (pre ++ l :: post) = Local.primaryPass (pre ++ post)) ∧
    (∀ pre post l, Local.lineFallback l = .skip →
      Local.fallbackPass (pre ++ l :: post) = Local.fallbackPass (pre ++ post)) := by
  refine ⟨?_, ?_, ?_, ?_⟩
  · intro l t h
    unfold Local.linePrimary at h
    cases hm : Local.matchPrimary (pyStrip l.toList) with
    | none => rw [hm] at h; cases h
    | some v =>
      obtain ⟨day, mon, desc, g⟩ := v
      rw [hm] at h
      dsimp only at h
      cases hd : Local.lineDate day mon with
      | none => rw [hd] at h; cases h
      | some date =>
        rw [hd] at h
        dsimp only at h
        have hdate : t.date = date := by
          cases hg5 : g.g5 with
          | some mo =>
            rw [hg5] at h
            dsimp only at h
            cases hf : pyFloat (mo.filter (fun c => c ≠ ',')) with
            | none => rw [hf] at h; cases h
            | some v => rw [hf] at h; injection h with h; subst h; rfl
          | none =>
            rw [hg5] at h
            dsimp only at h
            cases hg6 : g.g6 with
            | none => rw [hg6] at h; cases h
            | some mi =>
              rw [hg6] at h
              dsimp only at h
              cases hf : pyFloat (mi.filter (fun c => c ≠ ',')) with
              | none => rw [hf] at h; cases h
              | some v => rw [hf] at h; injection h with h; subst h; rfl
        rw [hdate]
        have hdm : ∃ wsl rest, Local.matchDayMon (pyStrip l.toList) =
            some (day, mon, wsl, rest) := by
          unfold Local.matchPrimary at hm
          cases hmd2 : Local.matchDayMon (pyStrip l.toList) with
          | none => rw [hmd2] at hm; cases hm
          | some w =>
            obtain ⟨day', mon', wsl', rest'⟩ := w
            rw [hmd2] at hm
            dsimp only at hm
            rcases hrest : rest' with _ | ⟨t1, _ | ⟨t2, r5⟩⟩ <;> rw [hrest] at hm
            · cases hm
            · cases hm
            · dsimp only at hm
              split at hm
              · split at hm
                · cases hm
                · split at hm
                  · simp only [Option.some.injEq, Prod.mk.injEq] at hm
                    obtain ⟨hd1, hmon, -, -⟩ := hm
                    subst hd1
                    subst hmon
                    exact ⟨wsl', rest', by rw [hrest]⟩
                  · cases hm
              · cases hm
        obtain ⟨wsl, rest, hdm⟩ := hdm
        obtain ⟨hl1, hl2⟩ := matchDayMon_day _ _ _ _ _ hdm
        exact lineDate_valid day mon date hl1 hl2 hd
  · intro l t h
    unfold Local.lineFallback at h
    cases hm : Local.matchFallback (pyStrip l.toList) with
    | none => rw [hm] at h; cases h
    | some v =>
      obtain ⟨day, mon, desc, tok⟩ := v
      rw [hm] at h
      dsimp only at h
      cases hd : Local.lineDate day mon with
      | none => rw [hd] at h; cases h
      | some date =>
        rw [hd] at h
        dsimp only at h
        cases hf : pyFloat (tok.filter (fun c => c ≠ ',')) with
        | none => rw [hf] at h; cases h
        | some v =>
          rw [hf] at h
          injection h with h
          subst h
          have hdm : ∃ wsl rest, Local.matchDayMon (pyStrip l.toList) =
              some (day, mon, wsl, rest) := by
            unfold Local.matchFallback at hm
            cases hmd2 : Local.matchDayMon (pyStrip l.toList) with
            | none => rw [hmd2] at hm; cases hm
            | some w =>
              obtain ⟨day', mon', wsl', rest'⟩ := w
              rw [hmd2] at hm
              dsimp only at hm
              split at hm
              · simp only [Option.some.injEq, Prod.mk.injEq] at hm
                obtain ⟨hd1, hmon, -, -⟩ := hm
                subst hd1
                subst hmon
                exact ⟨wsl', rest', rfl⟩
              · cases hm
          obtain ⟨wsl, rest, hdm⟩ := hdm
          obtain ⟨hl1, hl2⟩ := matchDayMon_day _ _ _ _ _ hdm
          exact lineDate_valid day mon _ hl1 hl2 hd
  · intro pre post l h
    exact runLines_skip Local.linePrimary pre post l h
  · intro pre post l h
    exact runLines_skip Local.lineFallback pre post l h

/-- C2, witness: the amended facts at a concrete valid line and a
concrete line with an invalid day. -/
theorem claim2_amended_witness :
    isValidISODate (Txn.mk "2023-01-01" "FOO" (-5 : ℚ)).date = true ∧
    Local.primaryPass ["1 Jan DR FOO 5.00", "31 Jun DR X 1.00"] =
      Local.primaryPass ["1 Jan DR FOO 5.00"] := by
  constructor
  · exact claim2_amended.1 "1 Jan DR FOO 5.00" _ (by decide)
  · have h := claim2_amended.2.2.1 ["1 Jan DR FOO 5.00"] [] "31 Jun DR X 1.00" (by decide)
    simpa using h

/-! ## Claim C3 — document-level fallback -/

/-- C3, counterexample: a document whose only line matches just the
fallback pattern with a 0.00 token produces a fallback transaction with
amount 0, which is not strictly negative. -/
theorem claim3_counterexample :
    Local.parse ["1 Jan FOO 0.00"] = some [⟨"2023-01-01", "FOO", 0⟩] ∧
    Local.primaryPass ["1 Jan FOO 0.00"] = some [] ∧
    ¬((0 : ℚ) < 0) := by
  exact ⟨by decide, by decide, by decide⟩

/-- C3, amended: any successfully produced batch comes wholly from the
primary pass when that pass is non-empty, and otherwise wholly from the
fallback pass run iff the primary pass produced zero transactions; every
fallback transaction's amount is nonpositive (strictly negative only when
the token value is nonzero). -/
theorem claim3_amended : ∀ lines ts, Local.parse lines = some ts →
    (Local.primaryPass lines = some ts ∧ ts ≠ []) ∨
    (Local.primaryPass lines = some [] ∧ Local.fallbackPass lines = some ts ∧
      ∀ t ∈ ts, t.amount ≤ 0) := by
  intro lines ts h
  unfold Local.parse at h
  cases hp : Local.primaryPass lines with
  | none => rw [hp] at h; cases h
  | some ps =>
    rw [hp] at h
    dsimp only at h
    by_cases he : ps.isEmpty = true
    · rw [if_pos he] at h
      right
      have hps : ps = [] := by
        cases ps with
        | nil => rfl
        | cons a as => cases he
      subst hps
      exact ⟨rfl, h, runLines_txn_mem Local.lineFallback lines ts _
        (fun l t ht => lineFallback_amount l t ht) h⟩
    · rw [if_neg he] at h
      rw [Option.some.injEq] at h
      subst h
      left
      refine ⟨rfl, ?_⟩
      cases ps with
      | nil => cases he rfl
      | cons a as => simp

/-- C3, witness: the amended disjunction at a concrete document handled
entirely by the fallback pass. -/
theorem claim3_amended_witness :
    (Local.primaryPass ["1 Jan FOO 2.00"] = some [⟨"2023-01-01", "FOO", -2⟩] ∧
      ([⟨"2023-01-01", "FOO", -2⟩] : List Txn) ≠ []) ∨
    (Local.primaryPass ["1 Jan FOO 2.00"] = some [] ∧
      Local.fallbackPass ["1 Jan FOO 2.00"] = some [⟨"2023-01-01", "FOO", -2⟩] ∧
      ∀ t ∈ ([⟨"2023-01-01", "FOO", -2⟩] : List Txn), t.amount ≤ 0) :=
  claim3_amended ["1 Jan FOO 2.00"] [⟨"2023-01-01", "FOO", -2⟩] (by decide)

/-! ## Claim C7 — balance-marker rows -/

/-- C7, counterexample: a line recognised as a balance row only through
the CLOSING BALANCE marker, but containing the word OPENING elsewhere, is
labelled OPENING BALANCE, so the label does not follow the recognising
marker respectively. -/
theorem claim7_counterexample :
    CBA.parse ["18 March 2024 CLOSING BALANCE OF THE OPENING WEEK"] =
      [⟨"2024-03-18", "OPENING BALANCE", 0⟩] ∧
    hasSub "CLOSING BALANCE".toList
      (pyStrip "18 March 2024 CLOSING BALANCE OF THE OPENING WEEK".toList) = true ∧
    hasSub "OPENING BALANCE".toList
      (pyStrip "18 March 2024 CLOSING BALANCE OF THE OPENING WEEK".toList) = false := by
  exact ⟨by decide, by decide, by decide⟩

/-- C7, amended: every line recognised as a balance-marker line yields a
transaction with amount exactly 0 and no amount disambiguation; its
description is OPENING BALANCE exactly when the line contains the
substring OPENING (else CLOSING BALANCE), and its date is the formatted
leading date evidence, or the empty string when no date matches. -/
theorem claim7_amended : ∀ l t, CBA.isBalance l = true → CBA.lineOut l = some t →
    t.amount = 0 ∧
    t.description = (if hasSub "OPENING".toList (pyStrip l.toList)
      then "OPENING BALANCE" else "CLOSING BALANCE") ∧
    (CBA.dateMatch (pyStrip l.toList) = none → t.date = "") ∧
    (∀ day mon yr r, CBA.dateMatch (pyStrip l.toList) = some (day, mon, yr, r) →
      t.date = CBA.dateISO day mon yr) := by
  intro l t hb h
  unfold CBA.isBalance at hb
  unfold CBA.lineOut at h
  rw [if_pos hb] at h
  rw [Option.some.injEq] at h
  subst h
  refine ⟨rfl, rfl, ?_, ?_⟩
  · intro hdm
    show (match CBA.dateMatch (pyStrip l.toList) with
      | some (day, mon, yr, _) => CBA.dateISO day mon yr
      | none => "") = ""
    rw [hdm]
  · intro day mon yr r hdm
    show (match CBA.dateMatch (pyStrip l.toList) with
      | some (day, mon, yr, _) => CBA.dateISO day mon yr
      | none => "") = _
    rw [hdm]

/-- C7, witness: the amended facts at a concrete opening-balance line. -/
theorem claim7_amended_witness :
    (Txn.mk "2024-05-01" "OPENING BALANCE" 0).amount = 0 ∧
    (Txn.mk "2024-05-01" "OPENING BALANCE" 0).description =
      (if hasSub "OPENING".toList (pyStrip "1 May 2024 OPENING BALANCE $1,000.00".toList)
        then "OPENING BALANCE" else "CLOSING BALANCE") := by
  have h := claim7_amended "1 May 2024 OPENING BALANCE $1,000.00"
    (Txn.mk "2024-05-01" "OPENING BALANCE" 0) (by decide) (by decide)
  exact ⟨h.1, h.2.1⟩

theorem amountOf_two (ds t1 t2 : List Char) (h1 : t1 ≠ []) :
    WCC.amountOf ds [t1, t2] =
      some (if WCC.keywordCredit ds then ratMoneyTok t1 else -(ratMoneyTok t1)) := by
  unfold WCC.amountOf
  have hne : t1.isEmpty = false := by
    cases t1 with
    | nil => cases h1 rfl
    | cons a as => rfl
  by_cases hk : WCC.keywordCredit ds = true
  · simp [hk, hne]
  · rw [Bool.not_eq_true] at hk
    simp [hk, hne]

theorem amountOf_three (ds t1 t2 t3 : List Char) (h1 : t1 ≠ []) :
    WCC.amountOf ds [t1, t2, t3] = some (-(ratMoneyTok t1)) := by
  unfold WCC.amountOf
  have hne : t1.isEmpty = false := by
    cases t1 with
    | nil => cases h1 rfl
    | cons a as => rfl
  simp [hne]

/-- The continuation loop splits the pending lines at the first line
carrying at least two amount tokens. -/
theorem splitFrags_append (frags : List String) (aline : String) (tail : List String)
    (hf : ∀ f ∈ frags, WCC.countTokens (pyStrip f.toList) < 2)
    (ha : WCC.countTokens (pyStrip aline.toList) ≥ 2) :
    WCC.splitFrags (frags ++ aline :: tail) =
      (frags.map (fun f => pyStrip f.toList), some (pyStrip aline.toList, tail)) := by
  induction frags with
  | nil =>
    simp only [List.nil_append, WCC.splitFrags, List.map_nil]
    rw [if_pos ha]
  | cons x xs ih =>
    simp only [List.cons_append, WCC.splitFrags, List.map_cons, List.append_eq]
    have hx : ¬ (WCC.countTokens (pyStrip x.toList) ≥ 2) := by
      have := hf x (by simp)
      omega
    rw [if_neg hx]
    rw [ih (fun f hmem => hf f (by simp [hmem]))]

/-! ## Claim C5 — two-token disambiguation and the CR marker -/

/-- C5, counterexample: a two-token amounts line with first token 0.00
and no keyword evidence yields amount 0, not a strictly negative debit
amount. -/
theorem claim5_counterexample :
    WCC.parse ["01/02/23 FOO", "0.00 90.00"] = [⟨"2023-02-01", "FOO", 0⟩] ∧
    WCC.keywordCredit "FOO".toList = false ∧
    ¬((0 : ℚ) < 0) := by
  exact ⟨by decide, by decide, by decide⟩

/-- C5, amended: with exactly two amount tokens the first token's value
becomes the amount, kept positive under Deposit/Refund keyword evidence
and negated otherwise; the sign is strict only when the token value is
nonzero.  The ANZ CR label forces the nonnegated amount regardless of the
description. -/
theorem claim5_amended :
    (∀ ds t1 t2, t1 ≠ [] → WCC.amountOf ds [t1, t2] =
      some (if WCC.keywordCredit ds then ratMoneyTok t1 else -(ratMoneyTok t1))) ∧
    (∀ ds t1 t2 v, t1 ≠ [] → WCC.amountOf ds [t1, t2] = some v →
      (WCC.keywordCredit ds = true → 0 ≤ v ∧ (ratMoneyTok t1 ≠ 0 → 0 < v)) ∧
      (WCC.keywordCredit ds = false → v ≤ 0 ∧ (ratMoneyTok t1 ≠ 0 → v < 0))) ∧
    (∀ g t, ANZ.assemble g = some t → g.cr = true →
      t.amount = ratMoneyTok g.amountTok ∧ 0 ≤ t.amount ∧
        (ratMoneyTok g.amountTok ≠ 0 → 0 < t.amount)) := by
  refine ⟨fun ds t1 t2 h1 => amountOf_two ds t1 t2 h1, ?_, ?_⟩
  · intro ds t1 t2 v h1 hv
    rw [amountOf_two ds t1 t2 h1] at hv
    rw [Option.some.injEq] at hv
    have hnn := ratMoneyTok_nonneg t1
    constructor
    · intro hk
      rw [hk, if_pos rfl] at hv
      subst hv
      exact ⟨hnn, fun hne => lt_of_le_of_ne hnn (Ne.symm hne)⟩
    · intro hk
      rw [hk] at hv
      rw [if_neg (by simp)] at hv
      subst hv
      constructor
      · linarith
      · intro hne
        have : 0 < ratMoneyTok t1 := lt_of_le_of_ne hnn (Ne.symm hne)
        linarith
  · intro g t h hcr
    unfold ANZ.assemble at h
    cases hdt : ANZ.dateOf g.dateTrans with
    | none => rw [hdt] at h; cases h
    | some date =>
      rw [hdt] at h
      dsimp only at h
      rw [Option.some.injEq] at h
      subst h
      rw [hcr]
      dsimp only
      rw [if_pos rfl]
      have hnn := ratMoneyTok_nonneg g.amountTok
      exact ⟨rfl, hnn, fun hne => lt_of_le_of_ne hnn (Ne.symm hne)⟩

/-- C5, witness: the amended two-token rule at a keyword line and the
strict signs at nonzero tokens. -/
theorem claim5_amended_witness :
    WCC.amountOf "A Refund B".toList ["33.50".toList, "1,200.00".toList] =
      some (mkRat 67 2) :=
  (claim5_amended.1 "A Refund B".toList "33.50".toList "1,200.00".toList
    (by decide)).trans (by decide)

/-! ## Claim C6 — three-token positional convention -/

/-- C6: with exactly three amount tokens the first (debit) slot always
provides the amount, negated; the balance token is stored nowhere (the
assembled transaction is independent of it); and the ANZ example line
yields the claimed transaction with the 120.00 balance discarded. -/
theorem claim6_three_tokens :
    (∀ ds t1 t2 t3, t1 ≠ [] → WCC.amountOf ds [t1, t2, t3] = some (-(ratMoneyTok t1))) ∧
    (∀ (g : ANZ.Groups) (b b' : List Char), ANZ.assemble { g with balanceTok := b } =
      ANZ.assemble { g with balanceTok := b' }) ∧
    (ANZ.parse "01/02/2024 01/02/2024 1234 COFFEE SHOP 4.50 120.00" =
      some [⟨"2024-02-01", "COFFEE SHOP", -(mkRat 9 2)⟩]) := by
  refine ⟨fun ds t1 t2 t3 h1 => amountOf_three ds t1 t2 t3 h1, ?_, by decide⟩
  · intro g b b'
    unfold ANZ.assemble
    rfl

/-- C6, witness: the three-token rule at a concrete amounts line. -/
theorem claim6_witness :
    WCC.amountOf "COFFEE".toList
      ["4.50".toList, "100.00".toList, "2,000.00".toList] = some (-(mkRat 9 2)) :=
  (claim6_three_tokens.1 "COFFEE".toList "4.50".toList "100.00".toList "2,000.00".toList
    (by decide)).trans (by decide)

/-! ## Claim C4 — continuation resolution -/

/-- C4: after an operative date line, every following line is accumulated
as a description fragment until the first line with at least two amount
tokens; that amounts line is excluded from the description, the fragments
are joined with single spaces, and with two tokens and no credit keyword
the first token's value is negated.  Scanning resumes after the amounts
line. -/
theorem claim4_continuation :
    ∀ (d0 : String) (dd mm yy r0 : List Char) (date : String)
      (frags : List String) (aline : String) (tail : List String) (t1 t2 : List Char),
      WCC.dateMatch (pyStrip d0.toList) = some (dd, mm, yy, r0) →
      WCC.parseDate dd mm yy = some date →
      (∀ f ∈ frags, WCC.countTokens (pyStrip f.toList) < 2) →
      WCC.amountsIn (pyStrip aline.toList) = [t1, t2] →
      t1 ≠ [] →
      WCC.keywordCredit (List.intercalate [' ']
        (pyStrip r0 :: frags.map (fun f => pyStrip f.toList))) = false →
      WCC.parse (d0 :: (frags ++ aline :: tail)) =
        ⟨date, String.mk (List.intercalate [' ']
          (pyStrip r0 :: frags.map (fun f => pyStrip f.toList))),
          -(ratMoneyTok t1)⟩ :: WCC.parse tail := by
  intro d0 dd mm yy r0 date frags aline tail t1 t2 hdm hpd hf hamounts h1 hkw
  have ha : WCC.countTokens (pyStrip aline.toList) ≥ 2 := by
    unfold WCC.countTokens
    rw [hamounts]
    simp
  unfold WCC.parse
  simp only [List.length_cons]
  rw [WCC.goF]
  rw [hdm]
  dsimp only
  rw [hpd]
  dsimp only
  rw [splitFrags_append frags aline tail hf ha]
  dsimp only
  unfold WCC.amountsIn at hamounts
  unfold WCC.amountsIn
  rw [hamounts]
  rw [amountOf_two _ t1 t2 h1]
  rw [hkw]
  dsimp only
  rw [if_neg (by simp)]
  rw [WCC.goF_fuel ((frags ++ aline :: tail).length) tail.length tail
    (by simp [List.length_append]; omega) (le_refl _)]

/-- C4, witness: the continuation merge of the claim's concrete example. -/
theorem claim4_witness :
    WCC.parse ["01/02/23 A", "B", "C", "10.00 90.00"] =
      [⟨"2023-02-01", "A B C", -10⟩] := by
  have h := claim4_continuation "01/02/23 A" ['0', '1'] ['0', '2'] ['2', '3'] ['A']
    "2023-02-01" ["B", "C"] "10.00 90.00" [] "10.00".toList "90.00".toList
    (by decide) (by decide) (by decide) (by decide) (by decide) (by decide)
  exact h.trans (by decide)

/-! ## Claim C8 — description cleanup -/

theorem collapseGo_true_step (c : Char) (rest : List Char) :
    Westpac.collapseGo true (c :: rest) =
      if isPyWs c then Westpac.collapseGo true rest else c :: Westpac.collapseGo false rest := rfl

theorem collapseGo_false_two (c d : Char) (r2 : List Char) :
    Westpac.collapseGo false (c :: d :: r2) =
      if isPyWs c then
        (if isPyWs d then ' ' :: Westpac.collapseGo true (d :: r2)
          else c :: Westpac.collapseGo false (d :: r2))
      else c :: Westpac.collapseGo false (d :: r2) := rfl

theorem collapseGo_false_one (c : Char) :
    Westpac.collapseGo false [c] =
      if isPyWs c then [c] else c :: Westpac.collapseGo false [] := rfl

theorem collapseGo_false_cons_nonws (c : Char) (rest : List Char) (hc : isPyWs c = false) :
    Westpac.collapseGo false (c :: rest) = c :: Westpac.collapseGo false rest := by
  cases rest with
  | nil =>
    rw [collapseGo_false_one, if_neg (by simp [hc])]
  | cons d r2 =>
    rw [collapseGo_false_two, if_neg (by simp [hc])]

theorem collapseGo_false_ne_nil (cs : List Char) (h : cs ≠ []) :
    Westpac.collapseGo false cs ≠ [] := by
  cases cs with
  | nil => cases h rfl
  | cons c rest =>
    by_cases hw : isPyWs c = true
    · cases rest with
      | nil =>
        rw [collapseGo_false_one, if_pos hw]
        simp
      | cons d r2 =>
        rw [collapseGo_false_two, if_pos hw]
        by_cases hd : isPyWs d = true
        · rw [if_pos hd]
          simp
        · rw [if_neg hd]
          simp
    · have hwf : isPyWs c = false := by simpa using hw
      rw [collapseGo_false_cons_nonws c rest hwf]
      simp

theorem adjFree_cons (a : Char) (l : List Char) (h : adjFree l = true)
    (hh : ∀ b l2, l = b :: l2 → (isPyWs a && isPyWs b) = false) :
    adjFree (a :: l) = true := by
  cases l with
  | nil => rfl
  | cons b r =>
    unfold adjFree
    rw [hh b r rfl]
    simpa using h

theorem collapseGo_props : ∀ (n : Nat) (cs : List Char), cs.length ≤ n →
    adjFree (Westpac.collapseGo true cs) = true ∧
      adjFree (Westpac.collapseGo false cs) = true ∧
      ∀ c cs2, Westpac.collapseGo true cs = c :: cs2 → isPyWs c = false := by
  intro n
  induction n with
  | zero =>
    intro cs h
    have hn : cs = [] := List.eq_nil_of_length_eq_zero (by omega)
    subst hn
    exact ⟨rfl, rfl, fun c cs2 h0 => by cases h0⟩
  | succ n ih =>
    intro cs hlen
    cases cs with
    | nil => exact ⟨rfl, rfl, fun c cs2 h0 => by cases h0⟩
    | cons c rest =>
      simp only [List.length_cons] at hlen
      have hr : rest.length ≤ n := by omega
      obtain ⟨ihT, ihF, ihH⟩ := ih rest hr
      by_cases hw : isPyWs c = true
      · have e1 : Westpac.collapseGo true (c :: rest) = Westpac.collapseGo true rest := by
          rw [collapseGo_true_step, if_pos hw]
        refine ⟨by rw [e1]; exact ihT, ?_, by rw [e1]; exact ihH⟩
        cases rest with
        | nil =>
          rw [collapseGo_false_one, if_pos hw]
          rfl
        | cons d r2 =>
          by_cases hd : isPyWs d = true
          · rw [collapseGo_false_two, if_pos hw, if_pos hd]
            obtain ⟨ihT2, -, ihH2⟩ := ih (d :: r2) hr
            apply adjFree_cons
            · exact ihT2
            · intro b l2 hb
              have hbw := ihH2 b l2 hb
              simp [hbw]
          · have hdf : isPyWs d = false := by simpa using hd
            rw [collapseGo_false_two, if_pos hw, if_neg hd]
            obtain ⟨-, ihF2, -⟩ := ih (d :: r2) hr
            apply adjFree_cons
            · exact ihF2
            · intro b l2 hb
              rw [collapseGo_false_cons_nonws d r2 hdf] at hb
              injection hb with hb1 hb2
              subst hb1
              simp [hdf]
      · have hwf : isPyWs c = false := by simpa using hw
        have e1 : Westpac.collapseGo true (c :: rest) = c :: Westpac.collapseGo false rest := by
          rw [collapseGo_true_step, if_neg hw]
        have e2 : Westpac.collapseGo false (c :: rest) = c :: Westpac.collapseGo false rest :=
          collapseGo_false_cons_nonws c rest hwf
        have hadj : adjFree (c :: Westpac.collapseGo false rest) = true := by
          apply adjFree_cons
          · exact ihF
          · intro b l2 hb
            simp [hwf]
        refine ⟨by rw [e1]; exact hadj, by rw [e2]; exact hadj, ?_⟩
        intro c0 cs2 h0
        rw [e1] at h0
        injection h0 with h1 h2
        subst h1
        exact hwf

theorem lastOk_cons_cons (a b : Char) (l : List Char) :
    lastOk (a :: b :: l) = lastOk (b :: l) := by
  unfold lastOk
  rw [List.getLast?_cons_cons]

theorem collapseGo_true_ne_nil (cs : List Char) (hne : cs ≠ []) (hl : lastOk cs = true) :
    Westpac.collapseGo true cs ≠ [] := by
  induction cs with
  | nil => cases hne rfl
  | cons c rest ih =>
    by_cases hw : isPyWs c = true
    · rw [collapseGo_true_step, if_pos hw]
      cases rest with
      | nil =>
        unfold lastOk at hl
        simp only [List.getLast?_singleton] at hl
        rw [hw] at hl
        cases hl
      | cons d r2 =>
        rw [lastOk_cons_cons] at hl
        exact ih (by simp) hl
    · rw [collapseGo_true_step, if_neg hw]
      simp

theorem collapseGo_lastOk : ∀ (n : Nat) (cs : List Char) (flag : Bool), cs.length ≤ n →
    lastOk cs = true → lastOk (Westpac.collapseGo flag cs) = true := by
  intro n
  induction n with
  | zero =>
    intro cs flag h hl
    have hn : cs = [] := List.eq_nil_of_length_eq_zero (by omega)
    subst hn
    cases flag <;> rfl
  | succ n ih =>
    intro cs flag hlen hl
    cases cs with
    | nil => cases flag <;> rfl
    | cons c rest =>
      simp only [List.length_cons] at hlen
      have hr : rest.length ≤ n := by omega
      by_cases hw : isPyWs c = true
      · cases flag with
        | true =>
          rw [collapseGo_true_step, if_pos hw]
          cases rest with
          | nil =>
            unfold lastOk at hl
            simp only [List.getLast?_singleton] at hl
            rw [hw] at hl
            cases hl
          | cons d r2 =>
            rw [lastOk_cons_cons] at hl
            exact ih (d :: r2) true hr hl
        | false =>
          cases rest with
          | nil =>
            unfold lastOk at hl
            simp only [List.getLast?_singleton] at hl
            rw [hw] at hl
            cases hl
          | cons d r2 =>
            rw [lastOk_cons_cons] at hl
            by_cases hd : isPyWs d = true
            · rw [collapseGo_false_two, if_pos hw, if_pos hd]
              have hne : Westpac.collapseGo true (d :: r2) ≠ [] :=
                collapseGo_true_ne_nil (d :: r2) (by simp) hl
              cases hgo : Westpac.collapseGo true (d :: r2) with
              | nil => cases hne hgo
              | cons e0 es =>
                rw [lastOk_cons_cons]
                rw [← hgo]
                exact ih (d :: r2) true hr hl
            · have hdf : isPyWs d = false := by simpa using hd
              rw [collapseGo_false_two, if_pos hw, if_neg hd]
              have hne : Westpac.collapseGo false (d :: r2) ≠ [] :=
                collapseGo_false_ne_nil (d :: r2) (by simp)
              cases hgo : Westpac.collapseGo false (d :: r2) with
              | nil => cases hne hgo
              | cons e0 es =>
                rw [lastOk_cons_cons]
                rw [← hgo]
                exact ih (d :: r2) false hr hl
      · have hwf : isPyWs c = false := by simpa using hw
        have e : Westpac.collapseGo flag (c :: rest) = c :: Westpac.collapseGo false rest := by
          cases flag with
          | true => rw [collapseGo_true_step, if_neg hw]
          | false => exact collapseGo_false_cons_nonws c rest hwf
        rw [e]
        cases rest with
        | nil =>
          exact hl
        | cons d r2 =>
          rw [lastOk_cons_cons] at hl
          have hne : Westpac.collapseGo false (d :: r2) ≠ [] :=
            collapseGo_false_ne_nil (d :: r2) (by simp)
          cases hgo : Westpac.collapseGo false (d :: r2) with
          | nil => cases hne hgo
          | cons e0 es =>
            rw [lastOk_cons_cons]
            rw [← hgo]
            exact ih (d :: r2) false hr hl

theorem dropWhile_head_false (p : Char → Bool) (l : List Char) (c : Char) (r : List Char)
    (h : l.dropWhile p = c :: r) : p c = false := by
  induction l with
  | nil => cases h
  | cons a as ih =>
    rw [List.dropWhile_cons] at h
    by_cases hp : p a = true
    · rw [if_pos hp] at h
      exact ih h
    · rw [if_neg hp] at h
      injection h with h1 h2
      subst h1
      simpa using hp

theorem dropEndWs_head (l : List Char) (c : Char) (r : List Char)
    (h : dropEndWs l = c :: r) : l.head? = some c := by
  cases l with
  | nil => cases h
  | cons a as =>
    simp only [dropEndWs] at h
    split at h
    · cases h
    · injection h with h1 h2
      subst h1
      rfl

theorem dropEndWs_lastOk (l : List Char) : lastOk (dropEndWs l) = true := by
  induction l with
  | nil => rfl
  | cons c rest ih =>
    simp only [dropEndWs]
    by_cases hcond : ((dropEndWs rest).isEmpty && isPyWs c) = true
    · rw [if_pos hcond]
      rfl
    · rw [if_neg hcond]
      cases hE : dropEndWs rest with
      | nil =>
        rw [hE] at hcond
        simp only [List.isEmpty_nil, Bool.true_and] at hcond
        unfold lastOk
        simp only [List.getLast?_singleton]
        simpa using hcond
      | cons e es =>
        rw [lastOk_cons_cons]
        rw [← hE]
        exact ih

theorem pyStrip_headOk (l : List Char) : headOk (pyStrip l) = true := by
  unfold pyStrip
  cases hE : dropEndWs (l.dropWhile isPyWs) with
  | nil => rfl
  | cons c r =>
    have hhead := dropEndWs_head _ _ _ hE
    have hcw : isPyWs c = false := by
      cases hD : l.dropWhile isPyWs with
      | nil => rw [hD] at hhead; cases hhead
      | cons a as =>
        rw [hD] at hhead
        injection hhead with h1
        subst h1
        exact dropWhile_head_false isPyWs l a as hD
    unfold headOk
    simp [hcw]

theorem pyStrip_lastOk (l : List Char) : lastOk (pyStrip l) = true :=
  dropEndWs_lastOk _

theorem rawDesc_facts (rest tok : List Char) :
    Westpac.rawDesc rest tok ≠ [] ∧ headOk (Westpac.rawDesc rest tok) = true ∧
      lastOk (Westpac.rawDesc rest tok) = true := by
  unfold Westpac.rawDesc
  by_cases hcond : ((pyStrip (rest.take (Westpac.rawDescPos rest tok))).isEmpty
      || (!(pyStrip (rest.take (Westpac.rawDescPos rest tok))).isEmpty
        && (pyStrip (rest.take (Westpac.rawDescPos rest tok))).all Char.isDigit)) = true
  · rw [if_pos hcond]
    exact ⟨by simp, by decide, by decide⟩
  · rw [if_neg hcond]
    refine ⟨?_, pyStrip_headOk _, pyStrip_lastOk _⟩
    simp only [Bool.or_eq_true, Bool.and_eq_true, not_or] at hcond
    obtain ⟨h1, -⟩ := hcond
    intro hnil
    rw [hnil] at h1
    exact h1 rfl

/-- C8, counterexample: the CBA grammar emits an empty description when
the line consists only of the date and the amount token, and the Amex
grammar emits an all-digit description unchanged; neither collapses
whitespace nor substitutes a placeholder. -/
theorem claim8_counterexample :
    CBA.parse ["1 January 2024 4.50"] = [⟨"2024-01-01", "", -(mkRat 9 2)⟩] ∧
    Amex.parse ["May28 123 1.00"] = [⟨"2025-05-28", "123", -1⟩] := by
  exact ⟨by decide, by decide⟩

/-- C8, amended: in the Westpac grammar (the only one with the cleanup)
every emitted description is nonempty, has no two adjacent whitespace
characters, and is trimmed; the other grammars do not collapse or
substitute, and the CBA grammar can emit an empty description. -/
theorem claim8_amended : ∀ l t, Westpac.line l = some t →
    t.description ≠ "" ∧ adjFree t.description.toList = true ∧
      noEdgeWs t.description.toList = true := by
  intro l t h
  unfold Westpac.line at h
  cases hlm : Westpac.lineMatch l.toList with
  | none => rw [hlm] at h; cases h
  | some v =>
    obtain ⟨day, mon, yy, rest⟩ := v
    rw [hlm] at h
    dsimp only at h
    cases hlast : (findAllWith wMoneyAt rest).getLast? with
    | none => rw [hlast] at h; cases h
    | some tok =>
      rw [hlast] at h
      dsimp only at h
      cases hdt : Westpac.dateDBY day mon yy with
      | none => rw [hdt] at h; cases h
      | some date =>
        rw [hdt] at h
        rw [Option.some.injEq] at h
        subst h
        obtain ⟨hne, hhead, hlastok⟩ := rawDesc_facts rest tok
        refine ⟨?_, ?_, ?_⟩
        · show String.mk (Westpac.collapseWs (Westpac.rawDesc rest tok)) ≠ ""
          intro hs
          have : Westpac.collapseWs (Westpac.rawDesc rest tok) = [] := by
            have := congrArg String.toList hs
            simpa using this
          exact collapseGo_false_ne_nil _ hne this
        · show adjFree (String.mk (Westpac.collapseWs (Westpac.rawDesc rest tok))).toList = true
          have ht : (String.mk (Westpac.collapseWs (Westpac.rawDesc rest tok))).toList =
              Westpac.collapseWs (Westpac.rawDesc rest tok) := rfl
          rw [ht]
          exact (collapseGo_props (Westpac.rawDesc rest tok).length _ (le_refl _)).2.1
        · show noEdgeWs (String.mk (Westpac.collapseWs (Westpac.rawDesc rest tok))).toList = true
          have ht : (String.mk (Westpac.collapseWs (Westpac.rawDesc rest tok))).toList =
              Westpac.collapseWs (Westpac.rawDesc rest tok) := rfl
          rw [ht]
          unfold noEdgeWs
          have hH : headOk (Westpac.collapseWs (Westpac.rawDesc rest tok)) = true := by
            unfold Westpac.collapseWs
            cases hD : Westpac.rawDesc rest tok with
            | nil => cases hne hD
            | cons c r =>
              have hcw : isPyWs c = false := by
                unfold headOk at hhead
                rw [hD] at hhead
                simpa using hhead
              rw [collapseGo_false_cons_nonws c r hcw]
              unfold headOk
              simp [hcw]
          have hL : lastOk (Westpac.collapseWs (Westpac.rawDesc rest tok)) = true :=
            collapseGo_lastOk (Westpac.rawDesc rest tok).length _ false (le_refl _) hlastok
          rw [hH, hL]
          rfl

/-- C8, witness: the amended cleanup facts at a concrete layout line. -/
theorem claim8_amended_witness :
    ("COFFEE" : String) ≠ "" ∧ adjFree ("COFFEE" : String).toList = true ∧
      noEdgeWs ("COFFEE" : String).toList = true := by
  have h := claim8_amended "2 Jan 23  COFFEE   4.50"
    (Txn.mk "2023-01-02" "COFFEE" (-(mkRat 9 2))) (by decide)
  exact h

/-! ## Claim C9 — determinism modulo identifier -/

theorem withIds_strip (ids : Nat → String) (ts : List Txn) :
    (withIds ids ts).map stripId = ts := by
  unfold withIds
  rw [List.mapIdx_eq_enum_map, List.map_map]
  show ts.enum.map Prod.snd = ts
  exact List.enum_map_snd ts

theorem withIds_ids (ids : Nat → String) (ts : List Txn) :
    (withIds ids ts).map TxnId.id = (List.range ts.length).map ids := by
  unfold withIds
  rw [List.mapIdx_eq_enum_map, List.map_map]
  have h2 : (List.range ts.length).map ids = (ts.enum.map Prod.fst).map ids := by
    rw [List.enum_map_fst]
  rw [h2, List.map_map]
  rfl

/-- C9: re-running any of the six grammars on the same extracted input
with two different identifier streams yields batches that agree on every
field except id: stripping the ids gives the same ordered batch, which is
exactly the pure parse of the input, and the ids are drawn positionally
from the generator stream (one fresh id per appended transaction), never
derived from transaction content. -/
theorem claim9_determinism (ids ids2 : Nat → String) (lines : List String)
    (pages : List (List String)) (text : String) :
    ((withIds ids (CBA.parse lines)).map stripId =
        (withIds ids2 (CBA.parse lines)).map stripId) ∧
    ((withIds ids (Westpac.parse pages)).map stripId =
        (withIds ids2 (Westpac.parse pages)).map stripId) ∧
    ((withIds ids (WCC.parse lines)).map stripId =
        (withIds ids2 (WCC.parse lines)).map stripId) ∧
    ((withIds ids (Amex.parse lines)).map stripId =
        (withIds ids2 (Amex.parse lines)).map stripId) ∧
    ((Local.parse lines).map (fun ts => (withIds ids ts).map stripId) =
        (Local.parse lines).map (fun ts => (withIds ids2 ts).map stripId)) ∧
    ((ANZ.parse text).map (fun ts => (withIds ids ts).map stripId) =
        (ANZ.parse text).map (fun ts => (withIds ids2 ts).map stripId)) ∧
    (∀ ts : List Txn, (withIds ids ts).map stripId = ts) ∧
    (∀ ts : List Txn, (withIds ids ts).map TxnId.id = (List.range ts.length).map ids) := by
  refine ⟨?_, ?_, ?_, ?_, ?_, ?_, withIds_strip ids, withIds_ids ids⟩
  · rw [withIds_strip, withIds_strip]
  · rw [withIds_strip, withIds_strip]
  · rw [withIds_strip, withIds_strip]
  · rw [withIds_strip, withIds_strip]
  · cases Local.parse lines with
    | none => rfl
    | some ts =>
      dsimp only [Option.map]
      rw [withIds_strip, withIds_strip]
  · cases ANZ.parse text with
    | none => rfl
    | some ts =>
      dsimp only [Option.map]
      rw [withIds_strip, withIds_strip]

/-! ## Claim C10 — Westpac page selection -/

/-- C10: the Westpac (non-credit-card) grammar reads only the pages at
zero-based indices 2, 3 and 4: the batch depends on nothing else, a
matching line on page index 2 contributes, and the same line placed on
page index 0 or page index 5 contributes nothing; the other grammars
scan all their input. -/
theorem claim10_pages :
    (∀ pgs pgs2 : List (List String), pgs[2]? = pgs2[2]? → pgs[3]? = pgs2[3]? →
      pgs[4]? = pgs2[4]? → Westpac.parse pgs = Westpac.parse pgs2) ∧
    Westpac.parse [[], [], ["2 Jan 23 COFFEE 4.50"]] =
      [⟨"2023-01-02", "COFFEE", -(mkRat 9 2)⟩] ∧
    Westpac.parse [["2 Jan 23 COFFEE 4.50"], [], [], [], []] = [] ∧
    Westpac.parse [[], [], [], [], [], ["2 Jan 23 COFFEE 4.50"]] = [] := by
  refine ⟨?_, by decide, by decide, by decide⟩
  intro pgs pgs2 h2 h3 h4
  unfold Westpac.parse
  rw [h2, h3, h4]

/-- C10, witness: the page-invariance component applied at two concrete
documents whose pages at indices 2, 3 and 4 agree. -/
theorem claim10_pages_witness :
    Westpac.parse [["x"], ["y"], ["2 Jan 23 COFFEE 4.50"]] =
      Westpac.parse [[], [], ["2 Jan 23 COFFEE 4.50"]] :=
  (claim10_pages.1 _ _ (by decide) (by decide) (by decide))

end BankParse
